import Mathlib

/-!
Verification of the Munkres (Hungarian) assignment-algorithm implementation
from the RcppArmadillo gallery post "Munkres' Assignment Algorithm with
RcppArmadillo" (file 2013-09-24-minimal-assignment.cpp).

The C++ code is shallowly embedded: `arma::mat` / `arma::umat` / `arma::ivec`
values become total functions out of `ℕ` (entries with indices `≥ N` are junk
that the loops never touch), `double` becomes `ℚ` (exact real arithmetic),
and the pass-by-reference mutation of each `step_*` function becomes a state
transformer on the record `MState`.  Loops over `r = 0 .. N-1` become folds
over `List.range N`; the `int row = -1` "not found" sentinels of the helper
scans become `Option ℕ`.  The unbounded `while` dispatcher of `hungarian`
becomes a fuel-indexed runner; `none` marks behaviour the C++ source leaves
undefined or unfinished (running out of fuel, or `step_five` reading the
stale `col` sentinel after `find_prime_in_row` fails, which in C++ would
store `-1` into the path buffer).
-/

namespace Munkres

/-- Solver state: the variables declared in `hungarian` and threaded by
reference through the `step_*` functions.  The `input` field models the
caller-supplied buffer `input_cost` (in `hungarian_cc` this is R's memory,
passed without copying); `hungarian` copies it into the working matrix
`cost` (`arma::mat cost(input_cost)`) and must never write `input` itself.
`rcov`/`ccov` are the 0/1 cover vectors, `indM` the mark matrix
(0 = unmarked, 1 = starred, 2 = primed), `path` the 2N×2 vertex buffer of
step 5 and `rpath0`/`cpath0` the seed vertex set by step 4. -/
structure MState where
  input : ℕ → ℕ → ℚ
  step : ℕ
  cost : ℕ → ℕ → ℚ
  indM : ℕ → ℕ → ℕ
  rcov : ℕ → ℕ
  ccov : ℕ → ℕ
  rpath0 : ℕ
  cpath0 : ℕ
  path : ℕ → ℕ × ℕ

/-- Pointwise update of a matrix-as-function at one cell. -/
def updf (M : ℕ → ℕ → ℕ) (r c v : ℕ) : ℕ → ℕ → ℕ :=
  fun r' c' => if r' = r ∧ c' = c then v else M r' c'

/-- `arma::min(cost.row(r))`: the minimum entry of row `r` (rows are
nonempty, `N ≥ 1`, whenever this is called). -/
def rowMin (cost : ℕ → ℕ → ℚ) (N r : ℕ) : ℚ :=
  ((List.range N).map (fun c => cost r c)).foldl min (cost r 0)

/-- `step_one`: subtract each row's minimum from the row; go to step 2. -/
def step_one (N : ℕ) (s : MState) : MState :=
  { s with
    cost := fun r c => if r < N ∧ c < N then s.cost r c - rowMin s.cost N r else s.cost r c,
    step := 2 }

/-- One row of the `step_two` scan over the threaded
`(indM, rcov, ccov)` triple: star the first zero of row `r` whose row and
column are both uncovered, and cover that row and column. -/
def step_two_row (N : ℕ) (cost : ℕ → ℕ → ℚ)
    (t : (ℕ → ℕ → ℕ) × (ℕ → ℕ) × (ℕ → ℕ)) (r : ℕ) :
    (ℕ → ℕ → ℕ) × (ℕ → ℕ) × (ℕ → ℕ) :=
  match (List.range N).find?
      (fun c => decide (cost r c = 0 ∧ t.2.1 r = 0 ∧ t.2.2 c = 0)) with
  | some c => (updf t.1 r c 1, Function.update t.2.1 r 1, Function.update t.2.2 c 1)
  | none => t

/-- `step_two`: scan rows top-to-bottom; in each row star the first zero
whose row and column are currently uncovered, covering that row and column;
afterwards clear both cover vectors and go to step 3. -/
def step_two (N : ℕ) (s : MState) : MState :=
  let t := (List.range N).foldl (step_two_row N s.cost) (s.indM, s.rcov, s.ccov)
  { s with indM := t.1, rcov := fun _ => 0, ccov := fun _ => 0, step := 3 }

/-- `step_three`: cover every column containing a starred zero; if `N`
columns are covered the starred zeros are a complete assignment (step 7),
otherwise go to step 4. -/
def step_three (N : ℕ) (s : MState) : MState :=
  let ccov' : ℕ → ℕ :=
    fun c => if c < N ∧ ((List.range N).any (fun r => decide (s.indM r c = 1))) then 1 else s.ccov c
  let colcount := ((List.range N).filter (fun c => decide (ccov' c = 1))).length
  { s with ccov := ccov', step := if colcount = N then 7 else 4 }

/-- `find_noncovered_zero`: first cell in row-major order holding a zero
with uncovered row and column; `none` models `row = col = -1`. -/
def find_noncovered_zero (cost : ℕ → ℕ → ℚ) (rcov ccov : ℕ → ℕ) (N : ℕ) :
    Option (ℕ × ℕ) :=
  (List.range N).findSome? (fun r =>
    ((List.range N).find?
      (fun c => decide (cost r c = 0 ∧ rcov r = 0 ∧ ccov c = 0))).map (fun c => (r, c)))

/-- `star_in_row`: does row `row` contain a starred zero? -/
def star_in_row (row : ℕ) (indM : ℕ → ℕ → ℕ) (N : ℕ) : Bool :=
  (List.range N).any (fun c => decide (indM row c = 1))

/-- `find_star_in_row`: column of the (last) star in `row`; the C++ loop
does not break, so the last match wins; `none` models `col = -1`. -/
def find_star_in_row (row : ℕ) (indM : ℕ → ℕ → ℕ) (N : ℕ) : Option ℕ :=
  (List.range N).foldl (fun col c => if indM row c = 1 then some c else col) none

/-- `find_star_in_col`: row of the (last) star in column `col`;
`none` models `row = -1`. -/
def find_star_in_col (col : ℕ) (indM : ℕ → ℕ → ℕ) (N : ℕ) : Option ℕ :=
  (List.range N).foldl (fun row r => if indM r col = 1 then some r else row) none

/-- `find_prime_in_row`: column of the (last) prime in `row`.  The C++
function does not reset `col` first, so on failure the caller's `col` is
left unchanged; `none` reports that failure to the caller. -/
def find_prime_in_row (row : ℕ) (indM : ℕ → ℕ → ℕ) (N : ℕ) : Option ℕ :=
  (List.range N).foldl (fun col c => if indM row c = 2 then some c else col) none

/-- Number of uncovered rows; termination measure for the `step_four` loop
(each non-final iteration covers a previously uncovered row). -/
def uncovCount (rcov : ℕ → ℕ) (N : ℕ) : ℕ :=
  ((Finset.range N).filter (fun r => rcov r = 0)).card

/-- The `while` loop of `step_four`, returning the updated
`(indM, rcov, ccov, step)` and the seed vertex `(rpath_0, cpath_0)` when the
exit was to step 5.  Each non-final iteration primes an uncovered zero and
covers its (previously uncovered) row, so `N + 1` rounds of fuel always
suffice (`step_four_go_isSome` below); the fuel only makes the recursion
structural.  When `star_in_row` holds, `find_star_in_row` cannot fail; the
dead `none` arm skips the `ccov` write (in C++ it would write through index
`-1`). -/
def step_four_go (N : ℕ) (cost : ℕ → ℕ → ℚ) :
    ℕ → (ℕ → ℕ → ℕ) → (ℕ → ℕ) → (ℕ → ℕ) →
    Option ((ℕ → ℕ → ℕ) × (ℕ → ℕ) × (ℕ → ℕ) × ℕ × Option (ℕ × ℕ))
  | 0, _, _, _ => none
  | fuel + 1, indM, rcov, ccov =>
    match find_noncovered_zero cost rcov ccov N with
    | none => some (indM, rcov, ccov, 6, none)
    | some (row, col) =>
      let indM' := updf indM row col 2
      if star_in_row row indM' N then
        match find_star_in_row row indM' N with
        | some col2 =>
          step_four_go N cost fuel indM' (Function.update rcov row 1)
            (Function.update ccov col2 0)
        | none =>
          step_four_go N cost fuel indM' (Function.update rcov row 1) ccov
      else
        some (indM', rcov, ccov, 5, some (row, col))

/-- `step_four`: prime uncovered zeros, redirecting covers, until either no
uncovered zero remains (go to step 6) or a primed zero without a star in its
row seeds the augmenting path (record it in `rpath_0`/`cpath_0`, step 5).
The result is `some` for every input (`step_four_isSome`). -/
def step_four (N : ℕ) (s : MState) : Option MState :=
  (step_four_go N s.cost (N + 1) s.indM s.rcov s.ccov).map (fun t =>
    { s with
      indM := t.1, rcov := t.2.1, ccov := t.2.2.1, step := t.2.2.2.1,
      rpath0 := (t.2.2.2.2.map Prod.fst).getD s.rpath0,
      cpath0 := (t.2.2.2.2.map Prod.snd).getD s.cpath0 })

/-- `augment_path`: along the recorded path, unstar starred cells and star
the others (the primed ones). -/
def augment_path (path_count : ℕ) (indM : ℕ → ℕ → ℕ) (path : ℕ → ℕ × ℕ) :
    ℕ → ℕ → ℕ :=
  (List.range path_count).foldl
    (fun M p =>
      if M (path p).1 (path p).2 = 1 then updf M (path p).1 (path p).2 0
      else updf M (path p).1 (path p).2 1)
    indM

/-- `erase_primes`: erase every primed mark. -/
def erase_primes (indM : ℕ → ℕ → ℕ) (N : ℕ) : ℕ → ℕ → ℕ :=
  fun r c => if r < N ∧ c < N ∧ indM r c = 2 then 0 else indM r c

/-- The `while` loop of `step_five`, building the alternating path.  Returns
the final buffer and `path_count`, or `none` when the C++ code leaves the
modelled behaviour: fuel exhaustion (the buffer bound `2N` is long
overrun by then) or `find_prime_in_row` failing (C++ would store the stale
`col`, initially `-1`, into the buffer). -/
def step_five_go (N : ℕ) (indM : ℕ → ℕ → ℕ) (fuel : ℕ) (path : ℕ → ℕ × ℕ)
    (path_count : ℕ) : Option ((ℕ → ℕ × ℕ) × ℕ) :=
  match fuel with
  | 0 => none
  | fuel + 1 =>
    match find_star_in_col (path (path_count - 1)).2 indM N with
    | none => some (path, path_count)
    | some row =>
      let path₁ := Function.update path path_count (row, (path (path_count - 1)).2)
      match find_prime_in_row (path₁ path_count).1 indM N with
      | none => none
      | some col =>
        let path₂ := Function.update path₁ (path_count + 1) ((path₁ path_count).1, col)
        step_five_go N indM fuel path₂ (path_count + 2)

/-- `step_five`: seed the path buffer with `(rpath_0, cpath_0)`, extend it
alternating starred and primed zeros, then augment along it, clear the
covers and erase the primes; go to step 3.  The loop appends one starred
zero per iteration, each in a fresh row, so `N + 1` rounds of fuel cover
every run that stays within the `2N × 2` buffer. -/
def step_five (N : ℕ) (s : MState) : Option MState :=
  match step_five_go N s.indM (N + 1) (Function.update s.path 0 (s.rpath0, s.cpath0)) 1 with
  | none => none
  | some (path', path_count) =>
    some { s with
      path := path',
      indM := erase_primes (augment_path path_count s.indM path') N,
      rcov := fun _ => 0, ccov := fun _ => 0, step := 3 }

/-- Largest finite IEEE double, `DBL_MAX = 2^1024 - 2^971`, as an exact
rational (written as an integer literal so that the kernel can evaluate
comparisons against it directly). -/
def DBL_MAX : ℚ := 179769313486231570814527423731704356798070567525844996598917476803157260780028538760589558632766878171540458953514382464234321326889464182768467546703537516986049910576551282076245490090389328944075868508455133942304583236903222948165808559332123348274797826204144723168738177180919299881250404026184124858368

/-- `find_smallest`: fold the minimum of the cells with uncovered row and
column into `minval` (passed in as `DBL_MAX` by `step_six`). -/
def find_smallest (minval : ℚ) (cost : ℕ → ℕ → ℚ) (rcov ccov : ℕ → ℕ) (N : ℕ) : ℚ :=
  (List.range N).foldl
    (fun mv r =>
      (List.range N).foldl
        (fun mv c =>
          if rcov r = 0 ∧ ccov c = 0 then (if mv > cost r c then cost r c else mv) else mv)
        mv)
    minval

/-- `step_six`: add the minimum uncovered value to every cell of a covered
row and subtract it from every cell of an uncovered column; go to step 4. -/
def step_six (N : ℕ) (s : MState) : MState :=
  let minval := find_smallest DBL_MAX s.cost s.rcov s.ccov N
  { s with
    cost := fun r c =>
      if r < N ∧ c < N then
        s.cost r c + (if s.rcov r = 1 then minval else 0) -
          (if s.ccov c = 0 then minval else 0)
      else s.cost r c,
    step := 4 }

/-- One round of the `switch` dispatcher in `hungarian`.  Step 7 and any
other unknown value leave the state unchanged (the C++ loop would keep
spinning on an unknown value; on 7 it sets `done` and exits). -/
def dispatch (N : ℕ) (s : MState) : Option MState :=
  match s.step with
  | 1 => some (step_one N s)
  | 2 => some (step_two N s)
  | 3 => some (step_three N s)
  | 4 => step_four N s
  | 5 => step_five N s
  | 6 => some (step_six N s)
  | _ => some s

/-- Initial state built by `hungarian`: the working cost matrix is a copy of
the caller's matrix, `indM` is zeroed, the cover vectors start cleared and
the path seed variables are `0`. -/
def initState (N : ℕ) (input_cost : ℕ → ℕ → ℚ) : MState :=
  { input := input_cost, step := 1, cost := input_cost,
    indM := fun _ _ => 0, rcov := fun _ => 0, ccov := fun _ => 0,
    rpath0 := 0, cpath0 := 0, path := fun _ => (0, 0) }

/-- Exactly `k` rounds of the dispatcher (the trace of the `while` loop);
used to talk about every intermediate state of a solve. -/
def runSteps (N k : ℕ) (s : MState) : Option MState :=
  match k with
  | 0 => some s
  | k + 1 => (dispatch N s).bind (runSteps N k)

/-- A state of the solver reachable during `hungarian N input` after some
number of completed phases. -/
def Reachable (N : ℕ) (input_cost : ℕ → ℕ → ℚ) (s : MState) : Prop :=
  ∃ k, runSteps N k (initState N input_cost) = some s

/-- The dispatcher loop run to completion: stop as soon as `step = 7`,
otherwise keep dispatching while fuel lasts. -/
def runToDone (N : ℕ) : ℕ → MState → Option MState
  | 0, s => if s.step = 7 then some s else none
  | fuel + 1, s => if s.step = 7 then some s else (dispatch N s).bind (runToDone N fuel)

/-- `hungarian`: run the state machine from the initial state to step 7 and
return the indicator matrix `indM`. -/
def hungarian (input_cost : ℕ → ℕ → ℚ) (N fuel : ℕ) : Option (ℕ → ℕ → ℕ) :=
  (runToDone N fuel (initState N input_cost)).map MState.indM

/-- `hungarian_cc`: the exported wrapper; it hands R's buffer to `hungarian`
(which copies it) using `N = cost.rows()` and converts the result to a
signed integer matrix (the values 0/1 are unchanged). -/
def hungarian_cc (cost : ℕ → ℕ → ℚ) (N fuel : ℕ) : Option (ℕ → ℕ → ℕ) :=
  hungarian cost N fuel

/-- `hungariansafe_cc`: checks the shape first and throws
`Matrix is not square.` for non-square input before doing anything else. -/
def hungariansafe_cc (cost : ℕ → ℕ → ℚ) (nrow ncol fuel : ℕ) :
    Except String (Option (ℕ → ℕ → ℕ)) :=
  if nrow ≠ ncol then Except.error "Matrix is not square."
  else Except.ok (hungarian cost nrow fuel)

/-- Shared concrete 2 × 2 zero matrix used to instantiate witnesses. -/
def zeroQ : ℕ → ℕ → ℚ := fun _ _ => 0

/-- Concrete 3 × 3 cost matrix whose solve reaches phase 6 in a state with
a covered row and a covered column. -/
def ceM : ℕ → ℕ → ℚ :=
  fun r c => (([[0, 1, 0], [1, 0, 4], [3, 1, 4]] : List (List ℚ)).getD r []).getD c 0

/-- The state of the `ceM` solve after four phases (1, 2, 3, 4), about to
run phase 6. -/
def ceState : MState := (runSteps 3 4 (initState 3 ceM)).getD (initState 3 ceM)

/-- The state of the `ceM` solve after six phases (1, 2, 3, 4, 6, 4), about
to run phase 5. -/
def ce5State : MState := (runSteps 3 6 (initState 3 ceM)).getD (initState 3 ceM)

/-- The assignment computed for `ceM` (fuel 30 is ample). -/
def ceSol : ℕ → ℕ → ℕ := (hungarian ceM 3 30).getD (fun _ _ => 0)

/-! Invariant definitions used to verify the solver. -/

/-- At most one starred zero per row. -/
def StarRowU (N : ℕ) (indM : ℕ → ℕ → ℕ) : Prop :=
  ∀ r c c', r < N → c < N → c' < N → indM r c = 1 → indM r c' = 1 → c = c'

/-- At most one starred zero per column. -/
def StarColU (N : ℕ) (indM : ℕ → ℕ → ℕ) : Prop :=
  ∀ r r' c, r < N → r' < N → c < N → indM r c = 1 → indM r' c = 1 → r = r'

/-- At most one primed zero per row. -/
def PrimeRowU (N : ℕ) (indM : ℕ → ℕ → ℕ) : Prop :=
  ∀ r c c', r < N → c < N → c' < N → indM r c = 2 → indM r c' = 2 → c = c'

/-- No primed zeros at all. -/
def NoPrimes (N : ℕ) (indM : ℕ → ℕ → ℕ) : Prop :=
  ∀ r c, r < N → c < N → indM r c ≠ 2

/-- Invariant of the `step_two` scan: marks are 0/1, stars are unique per
row and per column, and every star has its row and column covered. -/
def TwoInv (N : ℕ) (t : (ℕ → ℕ → ℕ) × (ℕ → ℕ) × (ℕ → ℕ)) : Prop :=
  (∀ r c, r < N → c < N → t.1 r c ≤ 1) ∧ StarRowU N t.1 ∧ StarColU N t.1 ∧
  (∀ r c, r < N → c < N → t.1 r c = 1 → t.2.1 r = 1 ∧ t.2.2 c = 1)

/-- Invariant of the mark/cover data inside one phase-4/phase-6 episode,
shared by the states about to run step 4, 5 or 6.  The `rank` clause is the
key acyclicity fact: a ranking of rows witnessing that whenever a primed
zero and a starred zero share a column, the star's row was covered before
the prime's row, so the alternating path of step 5 walks down a strictly
decreasing chain of rows and cannot cycle. -/
structure EpisodeBase (N : ℕ) (indM : ℕ → ℕ → ℕ) (rcov ccov : ℕ → ℕ) : Prop where
  starRow : StarRowU N indM
  starCol : StarColU N indM
  primeRow : PrimeRowU N indM
  star_unc_col : ∀ r c, r < N → c < N → indM r c = 1 → ccov c = 0 → rcov r = 1
  covRow_prime : ∀ r, r < N → rcov r = 1 → ∃ c, c < N ∧ indM r c = 2
  prime_unc_col : ∀ r c, r < N → c < N → indM r c = 2 → ccov c = 0
  nostar_col : ∃ c, c < N ∧ ccov c = 0 ∧ ∀ r, r < N → indM r c ≠ 1
  covRow_star : ∀ r, r < N → rcov r = 1 → ∃ c, c < N ∧ indM r c = 1
  rcov01 : ∀ r, rcov r = 0 ∨ rcov r = 1
  ccov01 : ∀ c, ccov c = 0 ∨ ccov c = 1
  rank : ∃ ρ : ℕ → ℕ, ∀ r c r', r < N → c < N → r' < N →
    indM r c = 2 → indM r' c = 1 → ρ r' < ρ r

/-- Invariant of states about to run step 4 or step 6: on top of the shared
episode invariant, every primed zero lies in a covered row. -/
structure EpisodeInv (N : ℕ) (indM : ℕ → ℕ → ℕ) (rcov ccov : ℕ → ℕ)
    extends EpisodeBase N indM rcov ccov : Prop where
  prime_covRow : ∀ r c, r < N → c < N → indM r c = 2 → rcov r = 1

/-- Invariant of states about to run step 5: the shared episode invariant
plus the seed vertex recorded by step 4 — a primed zero in an uncovered row
that contains no starred zero. -/
structure Step5Inv (N : ℕ) (s : MState)
    extends EpisodeBase N s.indM s.rcov s.ccov : Prop where
  seed_row_lt : s.rpath0 < N
  seed_col_lt : s.cpath0 < N
  seed_prime : s.indM s.rpath0 s.cpath0 = 2
  seed_unc : s.rcov s.rpath0 = 0
  seed_nostar : ∀ c, c < N → s.indM s.rpath0 c ≠ 1

/-- Master invariant of the solver state machine, by phase about to run. -/
structure Inv (N : ℕ) (s : MState) : Prop where
  marks_le : ∀ r c, r < N → c < N → s.indM r c ≤ 2
  at12 : s.step = 1 ∨ s.step = 2 →
    (∀ r c, s.indM r c = 0) ∧ (∀ r, s.rcov r = 0) ∧ (∀ c, s.ccov c = 0)
  at3 : s.step = 3 → StarRowU N s.indM ∧ StarColU N s.indM ∧ NoPrimes N s.indM ∧
    (∀ r, s.rcov r = 0) ∧ (∀ c, s.ccov c = 0)
  at46 : s.step = 4 ∨ s.step = 6 → EpisodeInv N s.indM s.rcov s.ccov
  at5 : s.step = 5 → Step5Inv N s
  at7 : s.step = 7 → StarRowU N s.indM ∧ StarColU N s.indM ∧ NoPrimes N s.indM ∧
    (∀ c, c < N → ∃ r, r < N ∧ s.indM r c = 1)
  step_range : 1 ≤ s.step ∧ s.step ≤ 7

/-- Invariant of the cost matrix needed for optimality: the working matrix
always differs from the caller's matrix by row and column potentials, it is
nonnegative once row reduction has run, starred and primed cells sit on
zeros, and inside an episode every star has exactly one of its row/column
covered (so phase 6 never moves a mark off zero). -/
structure CostInv (N : ℕ) (s : MState) : Prop where
  decomp : ∃ u v : ℕ → ℚ, ∀ r c, r < N → c < N → s.cost r c = s.input r c - u r - v c
  nonneg : s.step ≠ 1 → ∀ r c, r < N → c < N → 0 ≤ s.cost r c
  stars_zero : ∀ r c, r < N → c < N → s.indM r c = 1 → s.cost r c = 0
  primes_zero : ∀ r c, r < N → c < N → s.indM r c = 2 → s.cost r c = 0
  star_split : (s.step = 4 ∨ s.step = 6) → ∀ r c, r < N → c < N → s.indM r c = 1 →
    (s.rcov r = 1 ∧ s.ccov c = 0) ∨ (s.rcov r = 0 ∧ s.ccov c = 1)

/-- Total cost of an assignment matrix against the original cost matrix:
`sum(indM * cost)` in the post. -/
def assignCost (input : ℕ → ℕ → ℚ) (A : ℕ → ℕ → ℕ) (N : ℕ) : ℚ :=
  ∑ r ∈ Finset.range N, ∑ c ∈ Finset.range N, if A r c = 1 then input r c else 0

/-- The column of the starred zero of row `r` (step-7 mark matrices hold
exactly one); read off with the `find_star_in_row` helper of the source. -/
def rowStar (A : ℕ → ℕ → ℕ) (N r : ℕ) : ℕ :=
  (find_star_in_row r A N).getD 0

/-- The rows of the `N × N` range that contain a starred zero; its
cardinality is the size of the partial matching, the progress measure of
the outer episode loop. -/
def starRows (A : ℕ → ℕ → ℕ) (N : ℕ) : Finset ℕ :=
  (Finset.range N).filter (fun r => (List.range N).any (fun c => decide (A r c = 1)) = true)

/-- The cells of the `N × N` range whose row and column are both
uncovered — the region `find_smallest` scans. -/
def uncovCells (rcov ccov : ℕ → ℕ) (N : ℕ) : Finset (ℕ × ℕ) :=
  (Finset.range N ×ˢ Finset.range N).filter (fun p => rcov p.1 = 0 ∧ ccov p.2 = 0)

/-- Inner termination measure of the phase-4/phase-6 cycle: when no
uncovered zero exists, phase 6 strictly decreases this sum (either the
attained minimum drops a cell to zero, or every uncovered cell loses a full
`DBL_MAX`). -/
def tMeasure (N : ℕ) (s : MState) : ℕ :=
  ∑ p ∈ uncovCells s.rcov s.ccov N, (Int.ceil (s.cost p.1 p.2 / DBL_MAX)).toNat

/-- A 0/1 permutation matrix on the `N × N` range: exactly one `1` per row
and per column, everything else `0`. -/
def IsPermMatrix (N : ℕ) (A : ℕ → ℕ → ℕ) : Prop :=
  (∀ r, r < N → ∃! c, c < N ∧ A r c = 1) ∧
  (∀ c, c < N → ∃! r, r < N ∧ A r c = 1) ∧
  (∀ r c, r < N → c < N → A r c = 0 ∨ A r c = 1)

/-- Loop invariant of the `step_five` path construction after `k` complete
iterations (`path_count = 2k+1`): even positions `2j` hold primed zeros
`(R_j, C_j)` (the seed at `j = 0`), odd positions `2j+1` hold the starred
zero `(R_{j+1}, C_j)` found in column `C_j`, the rank `ρ` strictly
decreases along the rows (so the path cannot revisit a row), rows `R_j`
with `j ≥ 1` are covered and the seed row is uncovered and starless. -/
structure P5 (N : ℕ) (A : ℕ → ℕ → ℕ) (rcov : ℕ → ℕ) (ρ : ℕ → ℕ)
    (path : ℕ → ℕ × ℕ) (k : ℕ) : Prop where
  prime_r : ∀ j, j ≤ k → (path (2 * j)).1 < N
  prime_c : ∀ j, j ≤ k → (path (2 * j)).2 < N
  prime_m : ∀ j, j ≤ k → A (path (2 * j)).1 (path (2 * j)).2 = 2
  star_v : ∀ j, j < k → path (2 * j + 1) = ((path (2 * j + 2)).1, (path (2 * j)).2)
  star_m : ∀ j, j < k → A (path (2 * j + 2)).1 (path (2 * j)).2 = 1
  rho_dec : ∀ j, j < k → ρ ((path (2 * j + 2)).1) < ρ ((path (2 * j)).1)
  row_cov : ∀ j, 1 ≤ j → j ≤ k → rcov ((path (2 * j)).1) = 1
  row0_unc : rcov ((path 0).1) = 0
  row0_nostar : ∀ c, c < N → A ((path 0).1) c ≠ 1

/-! Lemmas and claim theorems. -/

/-! Generic facts about the last-match scan folds of the helper functions. -/

theorem foldl_opt_some {p : ℕ → Prop} [DecidablePred p] :
    ∀ (l : List ℕ) (acc : Option ℕ) (c : ℕ),
      l.foldl (fun col x => if p x then some x else col) acc = some c →
      (c ∈ l ∧ p c) ∨ acc = some c := by
  intro l
  induction l with
  | nil => intro acc c h; exact Or.inr h
  | cons x xs ih =>
    intro acc c h
    rw [List.foldl_cons] at h
    rcases ih _ _ h with h1 | h1
    · exact Or.inl ⟨List.mem_cons_of_mem _ h1.1, h1.2⟩
    · by_cases hp : p x
      · rw [if_pos hp] at h1
        injection h1 with h1; subst h1
        exact Or.inl ⟨List.mem_cons_self _ _, hp⟩
      · rw [if_neg hp] at h1; exact Or.inr h1

theorem foldl_opt_none {p : ℕ → Prop} [DecidablePred p] :
    ∀ (l : List ℕ) (acc : Option ℕ),
      l.foldl (fun col x => if p x then some x else col) acc = none →
      acc = none ∧ ∀ x ∈ l, ¬ p x := by
  intro l
  induction l with
  | nil => intro acc h; exact ⟨h, by simp⟩
  | cons x xs ih =>
    intro acc h
    rw [List.foldl_cons] at h
    obtain ⟨hacc, hall⟩ := ih _ h
    by_cases hp : p x
    · rw [if_pos hp] at hacc; exact Option.noConfusion hacc
    · rw [if_neg hp] at hacc
      refine ⟨hacc, fun y hy => ?_⟩
      rcases List.mem_cons.mp hy with rfl | hy
      · exact hp
      · exact hall y hy

theorem find_star_in_row_some {row N c : ℕ} {indM : ℕ → ℕ → ℕ}
    (h : find_star_in_row row indM N = some c) : c < N ∧ indM row c = 1 := by
  rcases foldl_opt_some _ _ _ h with h1 | h1
  · exact ⟨List.mem_range.mp h1.1, h1.2⟩
  · exact Option.noConfusion h1

theorem find_star_in_row_none {row N : ℕ} {indM : ℕ → ℕ → ℕ}
    (h : find_star_in_row row indM N = none) : ∀ c, c < N → indM row c ≠ 1 := by
  intro c hc
  exact (foldl_opt_none _ _ h).2 c (List.mem_range.mpr hc)

theorem find_star_in_col_some {col N r : ℕ} {indM : ℕ → ℕ → ℕ}
    (h : find_star_in_col col indM N = some r) : r < N ∧ indM r col = 1 := by
  rcases foldl_opt_some _ _ _ h with h1 | h1
  · exact ⟨List.mem_range.mp h1.1, h1.2⟩
  · exact Option.noConfusion h1

theorem find_star_in_col_none {col N : ℕ} {indM : ℕ → ℕ → ℕ}
    (h : find_star_in_col col indM N = none) : ∀ r, r < N → indM r col ≠ 1 := by
  intro r hr
  exact (foldl_opt_none _ _ h).2 r (List.mem_range.mpr hr)

theorem find_prime_in_row_some {row N c : ℕ} {indM : ℕ → ℕ → ℕ}
    (h : find_prime_in_row row indM N = some c) : c < N ∧ indM row c = 2 := by
  rcases foldl_opt_some _ _ _ h with h1 | h1
  · exact ⟨List.mem_range.mp h1.1, h1.2⟩
  · exact Option.noConfusion h1

theorem find_prime_in_row_none {row N : ℕ} {indM : ℕ → ℕ → ℕ}
    (h : find_prime_in_row row indM N = none) : ∀ c, c < N → indM row c ≠ 2 := by
  intro c hc
  exact (foldl_opt_none _ _ h).2 c (List.mem_range.mpr hc)

theorem star_in_row_iff {row N : ℕ} {indM : ℕ → ℕ → ℕ} :
    star_in_row row indM N = true ↔ ∃ c, c < N ∧ indM row c = 1 := by
  simp [star_in_row, List.any_eq_true, List.mem_range]

theorem find_noncovered_zero_none {cost : ℕ → ℕ → ℚ} {rcov ccov : ℕ → ℕ} {N : ℕ}
    (h : find_noncovered_zero cost rcov ccov N = none) :
    ∀ r c, r < N → c < N → ¬(cost r c = 0 ∧ rcov r = 0 ∧ ccov c = 0) := by
  intro r c hr hc hcond
  rw [find_noncovered_zero, List.findSome?_eq_none_iff] at h
  have hr2 := h r (List.mem_range.mpr hr)
  rw [Option.map_eq_none'] at hr2
  rw [List.find?_eq_none] at hr2
  exact absurd (decide_eq_true_iff.mpr hcond) (by simpa using hr2 c (List.mem_range.mpr hc))

theorem updf_eq {M : ℕ → ℕ → ℕ} {r c v : ℕ} : updf M r c v r c = v := by
  simp [updf]

theorem updf_ne {M : ℕ → ℕ → ℕ} {r c v r' c' : ℕ} (h : ¬(r' = r ∧ c' = c)) :
    updf M r c v r' c' = M r' c' := by
  simp only [updf, if_neg h]

theorem find_noncovered_zero_some {cost : ℕ → ℕ → ℚ} {rcov ccov : ℕ → ℕ} {N row col : ℕ}
    (h : find_noncovered_zero cost rcov ccov N = some (row, col)) :
    row < N ∧ col < N ∧ cost row col = 0 ∧ rcov row = 0 ∧ ccov col = 0 := by
  obtain ⟨r, hr, hfr⟩ := List.exists_of_findSome?_eq_some h
  rw [List.mem_range] at hr
  match hfind : (List.range N).find?
      (fun c => decide (cost r c = 0 ∧ rcov r = 0 ∧ ccov c = 0)) with
  | none => rw [hfind, Option.map_none'] at hfr; exact Option.noConfusion hfr
  | some c =>
    rw [hfind] at hfr
    simp only [Option.map_some'] at hfr
    obtain ⟨hrr, hcc⟩ : r = row ∧ c = col := by
      constructor <;> [exact congrArg Prod.fst (Option.some_injective _ hfr);
        exact congrArg Prod.snd (Option.some_injective _ hfr)]
    subst hrr; subst hcc
    have hmem := List.mem_of_find?_eq_some hfind
    rw [List.mem_range] at hmem
    have hp := List.find?_some hfind
    rw [decide_eq_true_iff] at hp
    exact ⟨hr, hmem, hp.1, hp.2.1, hp.2.2⟩

theorem uncovCount_update_lt {rcov : ℕ → ℕ} {N row : ℕ}
    (hrow : row < N) (h : rcov row = 0) :
    uncovCount (Function.update rcov row 1) N < uncovCount rcov N := by
  apply Finset.card_lt_card
  constructor
  · intro r hrmem
    simp only [Finset.mem_filter, Finset.mem_range] at hrmem ⊢
    refine ⟨hrmem.1, ?_⟩
    by_cases hre : r = row
    · subst hre
      rw [Function.update_same] at hrmem
      exact absurd hrmem.2 one_ne_zero
    · rw [Function.update_noteq hre] at hrmem
      exact hrmem.2
  · intro hsub
    have hmem : row ∈ (Finset.range N).filter (fun r => rcov r = 0) := by
      simp only [Finset.mem_filter, Finset.mem_range]
      exact ⟨hrow, h⟩
    have := hsub hmem
    simp only [Finset.mem_filter, Finset.mem_range, Function.update_same] at this
    exact absurd this.2 one_ne_zero

theorem step_four_go_isSome (N : ℕ) (cost : ℕ → ℕ → ℚ) :
    ∀ (fuel : ℕ) (indM : ℕ → ℕ → ℕ) (rcov ccov : ℕ → ℕ),
      uncovCount rcov N < fuel → (step_four_go N cost fuel indM rcov ccov).isSome = true := by
  intro fuel
  induction fuel with
  | zero => intro indM rcov ccov h; exact absurd h (Nat.not_lt_zero _)
  | succ fuel ih =>
    intro indM rcov ccov h
    unfold step_four_go
    match hfz : find_noncovered_zero cost rcov ccov N with
    | none => rfl
    | some (row, col) =>
      have hlt := uncovCount_update_lt (find_noncovered_zero_some hfz).1
        (find_noncovered_zero_some hfz).2.2.2.1
      by_cases hstar : star_in_row row (updf indM row col 2) N
      · simp only [hstar, if_true]
        match find_star_in_row row (updf indM row col 2) N with
        | some col2 => exact ih _ _ _ (by omega)
        | none => exact ih _ _ _ (by omega)
      · simp only [hstar, if_false]
        rfl

theorem uncovCount_le (rcov : ℕ → ℕ) (N : ℕ) : uncovCount rcov N ≤ N := by
  calc uncovCount rcov N ≤ (Finset.range N).card := Finset.card_filter_le _ _
    _ = N := Finset.card_range N

theorem step_four_isSome (N : ℕ) (s : MState) : (step_four N s).isSome = true := by
  unfold step_four
  rw [Option.isSome_map']
  exact step_four_go_isSome N s.cost (N + 1) s.indM s.rcov s.ccov
    (Nat.lt_succ_of_le (uncovCount_le s.rcov N))

theorem DBL_MAX_eq : DBL_MAX = 2 ^ 1024 - 2 ^ 971 := by norm_num [DBL_MAX]

/-! Basic lemmas about the runner. -/

theorem runToDone_done {N fuel : ℕ} {s : MState} (h : s.step = 7) :
    runToDone N fuel s = some s := by
  cases fuel <;> simp [runToDone, h]

theorem step_five_input {N : ℕ} {s s' : MState} (h : step_five N s = some s') :
    s'.input = s.input := by
  unfold step_five at h
  split at h
  · exact Option.noConfusion h
  · injection h with h; subst h; rfl

theorem step_four_input {N : ℕ} {s s' : MState} (h : step_four N s = some s') :
    s'.input = s.input := by
  unfold step_four at h
  match hgo : step_four_go N s.cost (N + 1) s.indM s.rcov s.ccov with
  | none => rw [hgo, Option.map_none'] at h; exact Option.noConfusion h
  | some t => rw [hgo, Option.map_some'] at h; injection h with h; subst h; rfl

theorem dispatch_input {N : ℕ} {s s' : MState} (h : dispatch N s = some s') :
    s'.input = s.input := by
  unfold dispatch at h
  split at h
  · injection h with h; subst h; rfl
  · injection h with h; subst h; rfl
  · injection h with h; subst h; rfl
  · exact step_four_input h
  · exact step_five_input h
  · injection h with h; subst h; rfl
  · injection h with h; subst h; rfl

theorem runSteps_input {N : ℕ} : ∀ (k : ℕ) (s s' : MState),
    runSteps N k s = some s' → s'.input = s.input := by
  intro k
  induction k with
  | zero => intro s s' h; injection h with h; subst h; rfl
  | succ k ih =>
    intro s s' h
    unfold runSteps at h
    match hd : dispatch N s with
    | none => rw [hd] at h; exact Option.noConfusion h
    | some s₁ =>
      rw [hd] at h
      exact (ih s₁ s' h).trans (dispatch_input hd)

/-! Claim C7: non-square rejection. -/

/-- Claim C7: a non-square input makes `hungariansafe_cc` fail with the
`Matrix is not square.` error; the result then does not depend on the
matrix entries or on how much work the solver could do (the algorithm is
never entered), and a square input never produces this error. -/
theorem hungariansafe_cc_invalid_shape (cost : ℕ → ℕ → ℚ) (nrow ncol fuel : ℕ)
    (h : nrow ≠ ncol) :
    hungariansafe_cc cost nrow ncol fuel = Except.error "Matrix is not square." ∧
    (∀ (cost₂ : ℕ → ℕ → ℚ) (fuel₂ : ℕ),
      hungariansafe_cc cost₂ nrow ncol fuel₂ = Except.error "Matrix is not square.") ∧
    (∀ (cost₂ : ℕ → ℕ → ℚ) (n fuel₂ : ℕ),
      hungariansafe_cc cost₂ n n fuel₂ = Except.ok (hungarian cost₂ n fuel₂)) := by
  refine ⟨?_, fun cost₂ fuel₂ => ?_, fun cost₂ n fuel₂ => ?_⟩
  · unfold hungariansafe_cc; exact if_pos h
  · unfold hungariansafe_cc; exact if_pos h
  · unfold hungariansafe_cc; exact if_neg (fun hne => hne rfl)

/-- Witness for C7 at the concrete shape 3 × 2 of the spec's example. -/
theorem hungariansafe_cc_invalid_shape_witness :
    (3 : ℕ) ≠ 2 ∧
    (hungariansafe_cc (fun _ _ => 0) 3 2 0 = Except.error "Matrix is not square." ∧
    (∀ (cost₂ : ℕ → ℕ → ℚ) (fuel₂ : ℕ),
      hungariansafe_cc cost₂ 3 2 fuel₂ = Except.error "Matrix is not square.") ∧
    (∀ (cost₂ : ℕ → ℕ → ℚ) (n fuel₂ : ℕ),
      hungariansafe_cc cost₂ n n fuel₂ = Except.ok (hungarian cost₂ n fuel₂))) :=
  ⟨by decide, hungariansafe_cc_invalid_shape (fun _ _ => 0) 3 2 0 (by decide)⟩

/-! Claim C8: the caller's matrix is never mutated. -/

/-- Claim C8: along every run of the solver, the caller-supplied matrix
(the `input` buffer handed to `hungarian`, which copies it into its working
matrix `cost` at initialisation) is left unchanged by every phase, so
`hungarian` is a pure function of its input from the caller's view. -/
theorem solver_never_mutates_caller_matrix (N : ℕ) (input : ℕ → ℕ → ℚ) (k : ℕ)
    (s : MState) (h : runSteps N k (initState N input) = some s) :
    s.input = input ∧ (initState N input).cost = input := by
  exact ⟨runSteps_input k (initState N input) s h, rfl⟩

/-- Witness for C8: a three-phase run on a concrete 2 × 2 matrix. -/
theorem solver_never_mutates_caller_matrix_witness :
    ∃ s, runSteps 2 3 (initState 2 zeroQ) = some s ∧
      s.input = zeroQ ∧ (initState 2 zeroQ).cost = zeroQ := by
  have hs : (runSteps 2 3 (initState 2 zeroQ)).isSome = true := rfl
  exact ⟨(runSteps 2 3 (initState 2 zeroQ)).get hs, (Option.some_get hs).symm,
    solver_never_mutates_caller_matrix 2 zeroQ 3 _ (Option.some_get hs).symm⟩

/-! Claim C9: the degenerate empty matrix. -/

/-- Claim C9: on a 0 × 0 input the solver reaches the terminal phase
immediately (steps 1, 2 and 3 do no per-cell work and step 3 counts
`0 = N` covered columns), returning the empty all-zero assignment, and the
safe wrapper raises no error. -/
theorem hungarian_empty_matrix (input : ℕ → ℕ → ℚ) (fuel : ℕ) (h : 3 ≤ fuel) :
    hungarian input 0 fuel = some (fun _ _ => 0) ∧
    hungariansafe_cc input 0 0 fuel = Except.ok (some (fun _ _ => 0)) := by
  obtain ⟨k, rfl⟩ : ∃ k, fuel = k + 3 := ⟨fuel - 3, by omega⟩
  have h1 : hungarian input 0 (k + 3) =
      (runToDone 0 k (step_three 0 (step_two 0 (step_one 0 (initState 0 input))))).map
        MState.indM := rfl
  have h2 : (step_three 0 (step_two 0 (step_one 0 (initState 0 input)))).step = 7 := rfl
  have h3 : hungarian input 0 (k + 3) = some (fun _ _ => 0) := by
    rw [h1, runToDone_done h2]; rfl
  refine ⟨h3, ?_⟩
  unfold hungariansafe_cc
  rw [if_neg (fun hne => hne rfl), h3]

/-- Witness for C9 with the minimal sufficient fuel. -/
theorem hungarian_empty_matrix_witness :
    3 ≤ 3 ∧
    (hungarian zeroQ 0 3 = some (fun _ _ => 0) ∧
      hungariansafe_cc zeroQ 0 0 3 = Except.ok (some (fun _ _ => 0))) :=
  ⟨by decide, hungarian_empty_matrix zeroQ 3 (by decide)⟩

/-! Claim C4: what step 6 does to each cell. -/

/-- Claim C4 (amended): when phase 6 runs, with `m` the minimum value over
cells whose row and column are both uncovered, every cell in a covered row
has `m` added and every cell in an uncovered column has `m` subtracted; a
cell in a covered row and an *uncovered* column receives both operations
and hence a net change of zero, while a cell in a covered row and a covered
column receives only the addition, a net change of `+m`. -/
theorem step_six_adjustment (N : ℕ) (s : MState) (r c : ℕ) (hr : r < N) (hc : c < N) :
    (step_six N s).cost r c =
      s.cost r c + (if s.rcov r = 1 then find_smallest DBL_MAX s.cost s.rcov s.ccov N else 0)
        - (if s.ccov c = 0 then find_smallest DBL_MAX s.cost s.rcov s.ccov N else 0) ∧
    (s.rcov r = 1 → s.ccov c = 0 → (step_six N s).cost r c = s.cost r c) ∧
    (s.rcov r = 1 → s.ccov c = 1 →
      (step_six N s).cost r c =
        s.cost r c + find_smallest DBL_MAX s.cost s.rcov s.ccov N) := by
  refine ⟨by simp [step_six, hr, hc], fun h1 h2 => ?_, fun h1 h2 => ?_⟩
  · simp [step_six, hr, hc, h1, h2]
  · simp [step_six, hr, hc, h1, h2]

/-- Witness for the amended C4 on a concrete 1 × 1 state. -/
theorem step_six_adjustment_witness :
    (0 : ℕ) < 1 ∧
    ((step_six 1 (initState 1 zeroQ)).cost 0 0 =
      (initState 1 zeroQ).cost 0 0 +
        (if (initState 1 zeroQ).rcov 0 = 1 then
          find_smallest DBL_MAX (initState 1 zeroQ).cost (initState 1 zeroQ).rcov
            (initState 1 zeroQ).ccov 1 else 0) -
        (if (initState 1 zeroQ).ccov 0 = 0 then
          find_smallest DBL_MAX (initState 1 zeroQ).cost (initState 1 zeroQ).rcov
            (initState 1 zeroQ).ccov 1 else 0) ∧
    ((initState 1 zeroQ).rcov 0 = 1 → (initState 1 zeroQ).ccov 0 = 0 →
      (step_six 1 (initState 1 zeroQ)).cost 0 0 = (initState 1 zeroQ).cost 0 0) ∧
    ((initState 1 zeroQ).rcov 0 = 1 → (initState 1 zeroQ).ccov 0 = 1 →
      (step_six 1 (initState 1 zeroQ)).cost 0 0 =
        (initState 1 zeroQ).cost 0 0 +
          find_smallest DBL_MAX (initState 1 zeroQ).cost (initState 1 zeroQ).rcov
            (initState 1 zeroQ).ccov 1)) :=
  ⟨Nat.zero_lt_one, step_six_adjustment 1 (initState 1 zeroQ) 0 0 Nat.zero_lt_one
    Nat.zero_lt_one⟩

/-- Counterexample to C4 as stated: in the solve of `ceM`, after four
phases the solver is about to run phase 6 with row 0 covered and column 1
covered, and the cell `(0, 1)` — in a covered row *and* a covered column —
does not keep its value: it only receives the addition, a net change of
`+m ≠ 0` (the claim predicts both operations and a net change of zero for
such cells). -/
theorem step_six_net_zero_counterexample :
    runSteps 3 4 (initState 3 ceM) = some (ceState) ∧ ceState.step = 6 ∧
      ceState.rcov 0 = 1 ∧ ceState.ccov 1 = 1 ∧
      ¬ (step_six 3 ceState).cost 0 1 = ceState.cost 0 1 := by
  refine ⟨by with_unfolding_all rfl, by with_unfolding_all rfl, by with_unfolding_all rfl,
    by with_unfolding_all rfl, by with_unfolding_all decide⟩

/-! Phase 2: the initial starring scan builds a partial matching. -/

theorem foldl_pres {α β : Type} {F : α → β → α} {P : α → Prop}
    (hF : ∀ t x, P t → P (F t x)) : ∀ (l : List β) (t : α), P t → P (l.foldl F t) := by
  intro l
  induction l with
  | nil => intro t ht; exact ht
  | cons x xs ih => intro t ht; rw [List.foldl_cons]; exact ih _ (hF t x ht)

theorem step_two_row_inv {N : ℕ} {cost : ℕ → ℕ → ℚ}
    (t : (ℕ → ℕ → ℕ) × (ℕ → ℕ) × (ℕ → ℕ)) (r : ℕ) (h : TwoInv N t) :
    TwoInv N (step_two_row N cost t r) := by
  unfold step_two_row
  match hfind : (List.range N).find?
      (fun c => decide (cost r c = 0 ∧ t.2.1 r = 0 ∧ t.2.2 c = 0)) with
  | none => exact h
  | some c =>
    have hc : c < N := List.mem_range.mp (List.mem_of_find?_eq_some hfind)
    have hcond := List.find?_some hfind
    rw [decide_eq_true_iff] at hcond
    obtain ⟨-, hrc0, hcc0⟩ := hcond
    obtain ⟨hle, hrowU, hcolU, hcov⟩ := h
    have hnostar_row : ∀ c1, c1 < N → r < N → t.1 r c1 ≠ 1 := by
      intro c1 hc1 hr hstar
      have := (hcov r c1 hr hc1 hstar).1
      omega
    have hnostar_col : ∀ r1, r1 < N → t.1 r1 c ≠ 1 := by
      intro r1 hr1 hstar
      have := (hcov r1 c hr1 hc hstar).2
      omega
    refine ⟨?_, ?_, ?_, ?_⟩ <;> dsimp only
    · intro r1 c1 hr1 hc1
      by_cases he : r1 = r ∧ c1 = c
      · obtain ⟨rfl, rfl⟩ := he; rw [updf_eq]
      · rw [updf_ne he]; exact hle r1 c1 hr1 hc1
    · intro r1 c1 c2 hr1 hc1 hc2 h1 h2
      by_cases he1 : r1 = r ∧ c1 = c
      · by_cases he2 : r1 = r ∧ c2 = c
        · rw [he1.2, he2.2]
        · rw [updf_ne he2] at h2
          exact absurd h2 (he1.1 ▸ hnostar_row c2 hc2 (he1.1 ▸ hr1))
      · rw [updf_ne he1] at h1
        by_cases he2 : r1 = r ∧ c2 = c
        · exact absurd h1 (he2.1 ▸ hnostar_row c1 hc1 (he2.1 ▸ hr1))
        · rw [updf_ne he2] at h2
          exact hrowU r1 c1 c2 hr1 hc1 hc2 h1 h2
    · intro r1 r2 c1 hr1 hr2 hc1 h1 h2
      by_cases he1 : r1 = r ∧ c1 = c
      · by_cases he2 : r2 = r ∧ c1 = c
        · rw [he1.1, he2.1]
        · rw [updf_ne he2] at h2
          exact absurd h2 (he1.2 ▸ hnostar_col r2 hr2)
      · rw [updf_ne he1] at h1
        by_cases he2 : r2 = r ∧ c1 = c
        · exact absurd h1 (he2.2 ▸ hnostar_col r1 hr1)
        · rw [updf_ne he2] at h2
          exact hcolU r1 r2 c1 hr1 hr2 hc1 h1 h2
    · intro r1 c1 hr1 hc1 h1
      by_cases he : r1 = r ∧ c1 = c
      · obtain ⟨rfl, rfl⟩ := he
        rw [Function.update_same, Function.update_same]
        exact ⟨rfl, rfl⟩
      · rw [updf_ne he] at h1
        obtain ⟨ha, hb⟩ := hcov r1 c1 hr1 hc1 h1
        constructor
        · by_cases hee : r1 = r
          · subst hee; rw [Function.update_same]
          · rw [Function.update_noteq hee]; exact ha
        · by_cases hee : c1 = c
          · subst hee; rw [Function.update_same]
          · rw [Function.update_noteq hee]; exact hb

theorem step_two_post {N : ℕ} {s : MState}
    (h0 : (∀ r c, s.indM r c = 0) ∧ (∀ r, s.rcov r = 0) ∧ (∀ c, s.ccov c = 0)) :
    StarRowU N (step_two N s).indM ∧ StarColU N (step_two N s).indM ∧
    NoPrimes N (step_two N s).indM ∧
    (∀ r c, r < N → c < N → (step_two N s).indM r c ≤ 2) ∧
    (∀ r, (step_two N s).rcov r = 0) ∧ (∀ c, (step_two N s).ccov c = 0) ∧
    (step_two N s).step = 3 := by
  have hP0 : TwoInv N (s.indM, s.rcov, s.ccov) := by
    refine ⟨?_, ?_, ?_, ?_⟩ <;> dsimp only
    · intro r c _ _; rw [h0.1]; exact Nat.zero_le _
    · intro r c c' _ _ _ h1 _
      rw [h0.1] at h1; exact absurd h1 (by simp)
    · intro r r' c _ _ _ h1 _
      rw [h0.1] at h1; exact absurd h1 (by simp)
    · intro r c _ _ h1
      rw [h0.1] at h1; exact absurd h1 (by simp)
  have hP := foldl_pres (@step_two_row_inv N s.cost) (List.range N)
    (s.indM, s.rcov, s.ccov) hP0
  have hind : (step_two N s).indM =
      ((List.range N).foldl (step_two_row N s.cost) (s.indM, s.rcov, s.ccov)).1 := rfl
  obtain ⟨hle, hrowU, hcolU, -⟩ := hP
  refine ⟨by rw [hind]; exact hrowU, by rw [hind]; exact hcolU, ?_, ?_, fun r => rfl,
    fun c => rfl, rfl⟩
  · intro r c hr hc h2
    have := hle r c hr hc
    rw [hind] at h2
    omega
  · intro r c hr hc
    rw [hind]
    exact le_trans (hle r c hr hc) (by omega)

/-! Phase 3: covering starred columns; exit to 7 or 4. -/

theorem any_star_col_iff {N c : ℕ} {indM : ℕ → ℕ → ℕ} :
    ((List.range N).any (fun r => decide (indM r c = 1))) = true ↔
      ∃ r, r < N ∧ indM r c = 1 := by
  simp [List.any_eq_true, List.mem_range]

theorem step_three_ccov {N : ℕ} {s : MState} (c : ℕ) :
    (step_three N s).ccov c =
      if c < N ∧ ((List.range N).any (fun r => decide (s.indM r c = 1))) then 1
      else s.ccov c := rfl

theorem step_three_frame {N : ℕ} (s : MState) :
    (step_three N s).indM = s.indM ∧ (step_three N s).rcov = s.rcov := ⟨rfl, rfl⟩

theorem step_three_step {N : ℕ} (s : MState) :
    (step_three N s).step = 7 ∨ (step_three N s).step = 4 := by
  unfold step_three
  dsimp only
  split
  · exact Or.inl rfl
  · exact Or.inr rfl

theorem step_three_seven {N : ℕ} {s : MState}
    (hcc : ∀ c, s.ccov c = 0) (h7 : (step_three N s).step = 7) :
    ∀ c, c < N → ∃ r, r < N ∧ s.indM r c = 1 := by
  intro c hc
  have hcount : (((List.range N).filter
      (fun c => decide ((step_three N s).ccov c = 1))).length = N) := by
    by_contra hne
    have : (step_three N s).step = 4 := by
      unfold step_three at h7 ⊢
      dsimp only at h7 ⊢
      rw [if_neg (by exact hne)] at h7
      exact absurd h7 (by omega)
    omega
  have hall := (@List.filter_length_eq_length _
    (fun c => decide ((step_three N s).ccov c = 1)) (List.range N)).mp
    (by rw [hcount, List.length_range])
  have hcv := hall c (List.mem_range.mpr hc)
  rw [decide_eq_true_iff] at hcv
  rw [step_three_ccov] at hcv
  by_cases hstar : (List.range N).any (fun r => decide (s.indM r c = 1)) = true
  · exact any_star_col_iff.mp hstar
  · rw [if_neg (fun hand => hstar hand.2)] at hcv
    rw [hcc c] at hcv
    exact absurd hcv (by omega)

theorem step_three_four {N : ℕ} {s : MState}
    (hrow : StarRowU N s.indM) (hcol : StarColU N s.indM) (hnp : NoPrimes N s.indM)
    (hrc : ∀ r, s.rcov r = 0) (hcc : ∀ c, s.ccov c = 0)
    (h4 : (step_three N s).step = 4) :
    EpisodeInv N (step_three N s).indM (step_three N s).rcov (step_three N s).ccov := by
  rw [(step_three_frame s).1, (step_three_frame s).2]
  have hcount : ¬(((List.range N).filter
      (fun c => decide ((step_three N s).ccov c = 1))).length = N) := by
    intro hcount
    have : (step_three N s).step = 7 := by
      unfold step_three at h4 ⊢
      dsimp only at h4 ⊢
      rw [if_pos (by exact hcount)]
    omega
  have hex : ∃ c, c < N ∧ ¬((step_three N s).ccov c = 1) := by
    by_contra hno
    push_neg at hno
    apply hcount
    have hall : ∀ a ∈ List.range N,
        (fun c => decide ((step_three N s).ccov c = 1)) a = true := by
      intro a hamem
      exact decide_eq_true_iff.mpr (hno a (List.mem_range.mp hamem))
    have h2 := List.filter_length_eq_length.mpr hall
    rw [List.length_range] at h2
    exact h2
  refine ⟨⟨hrow, hcol, ?_, ?_, ?_, ?_, ?_, ?_, ?_, ?_, ?_⟩, ?_⟩
  · intro r c c' hr hc _ h2 _
    exact absurd h2 (hnp r c hr hc)
  · intro r c hr hc hstar hcv
    rw [step_three_ccov] at hcv
    rw [if_pos ⟨hc, any_star_col_iff.mpr ⟨r, hr, hstar⟩⟩] at hcv
    exact absurd hcv (by omega)
  · intro r hr hrcv
    exact absurd (hrc r) (by omega)
  · intro r c hr hc h2
    exact absurd h2 (hnp r c hr hc)
  · obtain ⟨c, hc, hcv⟩ := hex
    refine ⟨c, hc, ?_, ?_⟩
    · rw [step_three_ccov] at hcv ⊢
      by_cases hif : c < N ∧ ((List.range N).any (fun r => decide (s.indM r c = 1))) = true
      · rw [if_pos hif] at hcv; exact absurd rfl hcv
      · rw [if_neg hif]; exact hcc c
    · intro r hr hstar
      rw [step_three_ccov] at hcv
      rw [if_pos ⟨hc, any_star_col_iff.mpr ⟨r, hr, hstar⟩⟩] at hcv
      exact hcv rfl
  · intro r hr hrcv
    exact absurd (hrc r) (by omega)
  · intro r; exact Or.inl (hrc r)
  · intro c
    rw [step_three_ccov]
    by_cases hif : c < N ∧ ((List.range N).any (fun r => decide (s.indM r c = 1)))
    · rw [if_pos hif]; exact Or.inr rfl
    · rw [if_neg hif]; exact Or.inl (hcc c)
  · refine ⟨fun _ => 0, ?_⟩
    intro r c r' hr hc _ h2 _
    exact absurd h2 (hnp r c hr hc)
  · intro r c hr hc h2
    exact absurd h2 (hnp r c hr hc)

/-! Phase 4: the priming loop keeps the episode invariant. -/

theorem updf2_star {indM : ℕ → ℕ → ℕ} {row col r c : ℕ} (h2 : indM row col ≠ 1) :
    (updf indM row col 2 r c = 1 ↔ indM r c = 1) := by
  by_cases he : r = row ∧ c = col
  · obtain ⟨rfl, rfl⟩ := he
    rw [updf_eq]
    exact ⟨fun h => absurd h (by omega), fun h => absurd h h2⟩
  · rw [updf_ne he]

theorem updf2_prime {indM : ℕ → ℕ → ℕ} {row col r c : ℕ} :
    updf indM row col 2 r c = 2 ↔ (indM r c = 2 ∨ (r = row ∧ c = col)) := by
  by_cases he : r = row ∧ c = col
  · obtain ⟨rfl, rfl⟩ := he
    rw [updf_eq]
    exact ⟨fun _ => Or.inr ⟨rfl, rfl⟩, fun _ => rfl⟩
  · rw [updf_ne he]
    exact ⟨fun h => Or.inl h, fun h => h.elim id (fun hand => absurd hand he)⟩

theorem update_keeps_one {f : ℕ → ℕ} {row r : ℕ} (h : f r = 1) :
    Function.update f row 1 r = 1 := by
  by_cases he : r = row
  · subst he; rw [Function.update_same]
  · rw [Function.update_noteq he]; exact h

theorem fourgo_cell_not_star {N : ℕ} {indM : ℕ → ℕ → ℕ} {rcov ccov : ℕ → ℕ}
    {row col : ℕ} (E : EpisodeBase N indM rcov ccov)
    (hrowN : row < N) (hcolN : col < N) (hrc0 : rcov row = 0) (hcc0 : ccov col = 0) :
    indM row col ≠ 1 := by
  intro hstar
  have := E.star_unc_col row col hrowN hcolN hstar hcc0
  omega

theorem fourgo_no_prime_in_row {N : ℕ} {indM : ℕ → ℕ → ℕ} {rcov ccov : ℕ → ℕ}
    {row : ℕ} (E : EpisodeInv N indM rcov ccov) (hrc0 : rcov row = 0) :
    ∀ c', c' < N → row < N → indM row c' ≠ 2 := by
  intro c' hc' hrowN h2
  have := E.prime_covRow row c' hrowN hc' h2
  omega

theorem rank_extend {N : ℕ} {indM : ℕ → ℕ → ℕ} {rcov ccov : ℕ → ℕ} {row col : ℕ}
    (E : EpisodeInv N indM rcov ccov)
    (hrowN : row < N) (hcolN : col < N) (hrc0 : rcov row = 0) (hcc0 : ccov col = 0) :
    ∃ ρ : ℕ → ℕ, ∀ r c r', r < N → c < N → r' < N →
      updf indM row col 2 r c = 2 → updf indM row col 2 r' c = 1 → ρ r' < ρ r := by
  obtain ⟨ρ, hρ⟩ := E.rank
  have hns := fourgo_cell_not_star E.toEpisodeBase hrowN hcolN hrc0 hcc0
  refine ⟨Function.update ρ row ((Finset.range N).sup ρ + 1), ?_⟩
  intro r c r' hr hc hr' h2 h1
  rw [updf2_prime] at h2
  rw [updf2_star hns] at h1
  rcases h2 with h2 | he
  · have hrcov : rcov r = 1 := E.prime_covRow r c hr hc h2
    have hccu : ccov c = 0 := E.prime_unc_col r c hr hc h2
    have hr'cov : rcov r' = 1 := E.star_unc_col r' c hr' hc h1 hccu
    have hrne : r ≠ row := fun hh => by rw [hh] at hrcov; omega
    have hr'ne : r' ≠ row := fun hh => by rw [hh] at hr'cov; omega
    rw [Function.update_noteq hr'ne, Function.update_noteq hrne]
    exact hρ r c r' hr hc hr' h2 h1
  · have hccu : ccov c = 0 := by rw [he.2]; exact hcc0
    have hr'cov : rcov r' = 1 := E.star_unc_col r' c hr' hc h1 hccu
    have hr'ne : r' ≠ row := fun hh => by rw [hh] at hr'cov; omega
    rw [Function.update_noteq hr'ne, he.1, Function.update_same]
    exact Nat.lt_succ_of_le (Finset.le_sup (Finset.mem_range.mpr hr'))

theorem episode_prime_exit {N : ℕ} {indM : ℕ → ℕ → ℕ} {rcov ccov : ℕ → ℕ}
    {row col : ℕ} (E : EpisodeInv N indM rcov ccov)
    (hrowN : row < N) (hcolN : col < N) (hrc0 : rcov row = 0) (hcc0 : ccov col = 0) :
    EpisodeBase N (updf indM row col 2) rcov ccov := by
  have hns := fourgo_cell_not_star E.toEpisodeBase hrowN hcolN hrc0 hcc0
  have hnp := fourgo_no_prime_in_row E hrc0
  refine ⟨?_, ?_, ?_, ?_, ?_, ?_, ?_, ?_, E.rcov01, E.ccov01, ?_⟩
  · intro r c c' hr hc hc' h1 h1'
    rw [updf2_star hns] at h1 h1'
    exact E.starRow r c c' hr hc hc' h1 h1'
  · intro r r' c hr hr' hc h1 h1'
    rw [updf2_star hns] at h1 h1'
    exact E.starCol r r' c hr hr' hc h1 h1'
  · intro r c c' hr hc hc' h2 h2'
    rw [updf2_prime] at h2 h2'
    rcases h2 with h2 | ⟨rfl, rfl⟩ <;> rcases h2' with h2' | h2'
    · exact E.primeRow r c c' hr hc hc' h2 h2'
    · exact absurd h2 (h2'.1 ▸ hnp c hc hrowN)
    · exact absurd h2' (hnp c' hc' hrowN)
    · rw [h2'.2]
  · intro r c hr hc h1 hcv
    rw [updf2_star hns] at h1
    exact E.star_unc_col r c hr hc h1 hcv
  · intro r hr hrcv
    obtain ⟨c, hc, h2⟩ := E.covRow_prime r hr hrcv
    refine ⟨c, hc, ?_⟩
    rw [updf2_prime]
    exact Or.inl h2
  · intro r c hr hc h2
    rw [updf2_prime] at h2
    rcases h2 with h2 | ⟨rfl, rfl⟩
    · exact E.prime_unc_col r c hr hc h2
    · exact hcc0
  · obtain ⟨c0, hc0, hcv0, hns0⟩ := E.nostar_col
    refine ⟨c0, hc0, hcv0, ?_⟩
    intro r hr h1
    rw [updf2_star hns] at h1
    exact hns0 r hr h1
  · intro r hr hrcv
    obtain ⟨c, hc, h1⟩ := E.covRow_star r hr hrcv
    refine ⟨c, hc, ?_⟩
    rw [updf2_star hns]
    exact h1
  · exact rank_extend E hrowN hcolN hrc0 hcc0

theorem episode_prime_cover {N : ℕ} {indM : ℕ → ℕ → ℕ} {rcov ccov : ℕ → ℕ}
    {row col col2 : ℕ} (E : EpisodeInv N indM rcov ccov)
    (hrowN : row < N) (hcolN : col < N) (hrc0 : rcov row = 0) (hcc0 : ccov col = 0)
    (hcol2N : col2 < N) (hstar2 : indM row col2 = 1) :
    EpisodeInv N (updf indM row col 2) (Function.update rcov row 1)
      (Function.update ccov col2 0) := by
  have hns := fourgo_cell_not_star E.toEpisodeBase hrowN hcolN hrc0 hcc0
  have hnp := fourgo_no_prime_in_row E hrc0
  have hcc2 : ccov col2 = 1 := by
    rcases E.ccov01 col2 with h | h
    · have := E.star_unc_col row col2 hrowN hcol2N hstar2 h
      omega
    · exact h
  have hcolne : col ≠ col2 := fun he => by rw [he] at hcc0; omega
  refine ⟨⟨?_, ?_, ?_, ?_, ?_, ?_, ?_, ?_, ?_, ?_, ?_⟩, ?_⟩
  · intro r c c' hr hc hc' h1 h1'
    rw [updf2_star hns] at h1 h1'
    exact E.starRow r c c' hr hc hc' h1 h1'
  · intro r r' c hr hr' hc h1 h1'
    rw [updf2_star hns] at h1 h1'
    exact E.starCol r r' c hr hr' hc h1 h1'
  · intro r c c' hr hc hc' h2 h2'
    rw [updf2_prime] at h2 h2'
    rcases h2 with h2 | ⟨rfl, rfl⟩ <;> rcases h2' with h2' | h2'
    · exact E.primeRow r c c' hr hc hc' h2 h2'
    · exact absurd h2 (h2'.1 ▸ hnp c hc hrowN)
    · exact absurd h2' (hnp c' hc' hrowN)
    · rw [h2'.2]
  · intro r c hr hc h1 hcv
    rw [updf2_star hns] at h1
    by_cases hceq : c = col2
    · have hreq : r = row :=
        E.starCol r row c hr hrowN hc h1 (by rw [hceq]; exact hstar2)
      rw [hreq, Function.update_same]
    · rw [Function.update_noteq hceq] at hcv
      have := E.star_unc_col r c hr hc h1 hcv
      exact update_keeps_one this
  · intro r hr hrcv
    by_cases hre : r = row
    · subst hre
      refine ⟨col, hcolN, ?_⟩
      rw [updf2_prime]
      exact Or.inr ⟨rfl, rfl⟩
    · rw [Function.update_noteq hre] at hrcv
      obtain ⟨c, hc, h2⟩ := E.covRow_prime r hr hrcv
      refine ⟨c, hc, ?_⟩
      rw [updf2_prime]
      exact Or.inl h2
  · intro r c hr hc h2
    rw [updf2_prime] at h2
    have hcold : ccov c = 0 := by
      rcases h2 with h2 | ⟨rfl, rfl⟩
      · exact E.prime_unc_col r c hr hc h2
      · exact hcc0
    have hcne : c ≠ col2 := fun he => by rw [he] at hcold; omega
    rw [Function.update_noteq hcne]
    exact hcold
  · obtain ⟨c0, hc0, hcv0, hns0⟩ := E.nostar_col
    have hc0ne : c0 ≠ col2 := fun he => by rw [he] at hcv0; omega
    refine ⟨c0, hc0, ?_, ?_⟩
    · rw [Function.update_noteq hc0ne]; exact hcv0
    · intro r hr h1
      rw [updf2_star hns] at h1
      exact hns0 r hr h1
  · intro r hr hrcv
    by_cases hre : r = row
    · subst hre
      refine ⟨col2, hcol2N, ?_⟩
      rw [updf2_star hns]
      exact hstar2
    · rw [Function.update_noteq hre] at hrcv
      obtain ⟨c, hc, h1⟩ := E.covRow_star r hr hrcv
      refine ⟨c, hc, ?_⟩
      rw [updf2_star hns]
      exact h1
  · intro r
    by_cases hre : r = row
    · subst hre; rw [Function.update_same]; exact Or.inr rfl
    · rw [Function.update_noteq hre]; exact E.rcov01 r
  · intro c
    by_cases hce : c = col2
    · subst hce; rw [Function.update_same]; exact Or.inl rfl
    · rw [Function.update_noteq hce]; exact E.ccov01 c
  · exact rank_extend E hrowN hcolN hrc0 hcc0
  · intro r c hr hc h2
    rw [updf2_prime] at h2
    rcases h2 with h2 | ⟨rfl, rfl⟩
    · exact update_keeps_one (E.prime_covRow r c hr hc h2)
    · rw [Function.update_same]

theorem step_four_go_inv {N : ℕ} {cost : ℕ → ℕ → ℚ} :
    ∀ (fuel : ℕ) (indM : ℕ → ℕ → ℕ) (rcov ccov : ℕ → ℕ)
      (M2 : ℕ → ℕ → ℕ) (rc2 cc2 : ℕ → ℕ) (st2 : ℕ) (seed2 : Option (ℕ × ℕ)),
      EpisodeInv N indM rcov ccov →
      step_four_go N cost fuel indM rcov ccov = some (M2, rc2, cc2, st2, seed2) →
      ((st2 = 6 ∧ seed2 = none ∧ EpisodeInv N M2 rc2 cc2) ∨
       (st2 = 5 ∧ ∃ row col, seed2 = some (row, col) ∧
         EpisodeBase N M2 rc2 cc2 ∧ row < N ∧ col < N ∧ M2 row col = 2 ∧
         rc2 row = 0 ∧ cc2 col = 0 ∧ (∀ c', c' < N → M2 row c' ≠ 1))) := by
  intro fuel
  induction fuel with
  | zero =>
    intro indM rcov ccov M2 rc2 cc2 st2 seed2 E h
    exact Option.noConfusion h
  | succ fuel ih =>
    intro indM rcov ccov M2 rc2 cc2 st2 seed2 E h
    rw [step_four_go] at h
    match hfz : find_noncovered_zero cost rcov ccov N with
    | none =>
      rw [hfz] at h
      injection h with h
      obtain ⟨rfl, rfl, rfl, rfl, rfl⟩ := Prod.mk.injEq .. ▸ (by
        simpa only [Prod.mk.injEq] using h :
          indM = M2 ∧ rcov = rc2 ∧ ccov = cc2 ∧ 6 = st2 ∧ none = seed2)
      exact Or.inl ⟨rfl, rfl, E⟩
    | some (row, col) =>
      rw [hfz] at h
      dsimp only at h
      obtain ⟨hrowN, hcolN, -, hrc0, hcc0⟩ := find_noncovered_zero_some hfz
      by_cases hstar : star_in_row row (updf indM row col 2) N = true
      · rw [if_pos hstar] at h
        match hfs : find_star_in_row row (updf indM row col 2) N with
        | some col2 =>
          rw [hfs] at h
          obtain ⟨hcol2N, hstar2'⟩ := find_star_in_row_some hfs
          have hns := fourgo_cell_not_star E.toEpisodeBase hrowN hcolN hrc0 hcc0
          rw [updf2_star hns] at hstar2'
          exact ih _ _ _ _ _ _ _ _
            (episode_prime_cover E hrowN hcolN hrc0 hcc0 hcol2N hstar2') h
        | none =>
          obtain ⟨c2, hc2, hstar2⟩ := star_in_row_iff.mp hstar
          exact absurd hstar2 (find_star_in_row_none hfs c2 hc2)
      · rw [if_neg hstar] at h
        injection h with h
        obtain ⟨rfl, rfl, rfl, rfl, rfl⟩ := Prod.mk.injEq .. ▸ (by
          simpa only [Prod.mk.injEq] using h :
            updf indM row col 2 = M2 ∧ rcov = rc2 ∧ ccov = cc2 ∧ 5 = st2 ∧
              some (row, col) = seed2)
        refine Or.inr ⟨rfl, row, col, rfl,
          episode_prime_exit E hrowN hcolN hrc0 hcc0, hrowN, hcolN, ?_, hrc0, hcc0, ?_⟩
        · rw [updf2_prime]; exact Or.inr ⟨rfl, rfl⟩
        · intro c' hc' h1
          have hns := fourgo_cell_not_star E.toEpisodeBase hrowN hcolN hrc0 hcc0
          rw [updf2_star hns] at h1
          rw [star_in_row_iff] at hstar
          exact hstar ⟨c', hc', (updf2_star hns).mpr h1⟩

theorem updf_le_two {M : ℕ → ℕ → ℕ} {row col v : ℕ} {N : ℕ}
    (hM : ∀ r c, r < N → c < N → M r c ≤ 2) (hv : v ≤ 2) :
    ∀ r c, r < N → c < N → updf M row col v r c ≤ 2 := by
  intro r c hr hc
  by_cases he : r = row ∧ c = col
  · obtain ⟨rfl, rfl⟩ := he; rw [updf_eq]; exact hv
  · rw [updf_ne he]; exact hM r c hr hc

theorem step_four_go_marks {N : ℕ} {cost : ℕ → ℕ → ℚ} :
    ∀ (fuel : ℕ) (indM : ℕ → ℕ → ℕ) (rcov ccov : ℕ → ℕ)
      (M2 : ℕ → ℕ → ℕ) (rc2 cc2 : ℕ → ℕ) (st2 : ℕ) (seed2 : Option (ℕ × ℕ)),
      (∀ r c, r < N → c < N → indM r c ≤ 2) →
      step_four_go N cost fuel indM rcov ccov = some (M2, rc2, cc2, st2, seed2) →
      ∀ r c, r < N → c < N → M2 r c ≤ 2 := by
  intro fuel
  induction fuel with
  | zero =>
    intro indM rcov ccov M2 rc2 cc2 st2 seed2 hM h
    exact Option.noConfusion h
  | succ fuel ih =>
    intro indM rcov ccov M2 rc2 cc2 st2 seed2 hM h
    rw [step_four_go] at h
    match hfz : find_noncovered_zero cost rcov ccov N with
    | none =>
      rw [hfz] at h
      injection h with h
      obtain ⟨rfl, -, -, -, -⟩ : indM = M2 ∧ rcov = rc2 ∧ ccov = cc2 ∧ 6 = st2 ∧
          (none : Option (ℕ × ℕ)) = seed2 := by simpa only [Prod.mk.injEq] using h
      exact hM
    | some (row, col) =>
      rw [hfz] at h
      dsimp only at h
      by_cases hstar : star_in_row row (updf indM row col 2) N = true
      · rw [if_pos hstar] at h
        match hfs : find_star_in_row row (updf indM row col 2) N with
        | some col2 =>
          rw [hfs] at h
          exact ih _ _ _ _ _ _ _ _ (updf_le_two hM (by omega)) h
        | none =>
          rw [hfs] at h
          exact ih _ _ _ _ _ _ _ _ (updf_le_two hM (by omega)) h
      · rw [if_neg hstar] at h
        injection h with h
        obtain ⟨rfl, -, -, -, -⟩ : updf indM row col 2 = M2 ∧ rcov = rc2 ∧ ccov = cc2 ∧
            5 = st2 ∧ some (row, col) = seed2 := by simpa only [Prod.mk.injEq] using h
        exact updf_le_two hM (by omega)

theorem step_four_post {N : ℕ} {s s' : MState}
    (E : EpisodeInv N s.indM s.rcov s.ccov) (h : step_four N s = some s') :
    ((s'.step = 6 ∧ EpisodeInv N s'.indM s'.rcov s'.ccov) ∨
      (s'.step = 5 ∧ Step5Inv N s')) ∧
    ((∀ r c, r < N → c < N → s.indM r c ≤ 2) →
      ∀ r c, r < N → c < N → s'.indM r c ≤ 2) := by
  unfold step_four at h
  match hgo : step_four_go N s.cost (N + 1) s.indM s.rcov s.ccov with
  | none => rw [hgo, Option.map_none'] at h; exact Option.noConfusion h
  | some t =>
    obtain ⟨M2, rc2, cc2, st2, seed2⟩ := t
    rw [hgo, Option.map_some'] at h
    injection h with h
    subst h
    constructor
    · rcases step_four_go_inv (N + 1) _ _ _ _ _ _ _ _ E hgo with
        ⟨h6, hseed, hE⟩ | ⟨h5, row, col, hseed, hB, hrowN, hcolN, hprime, hrc0, hcc0, hnostar⟩
      · subst h6; subst hseed
        exact Or.inl ⟨rfl, hE⟩
      · subst h5; subst hseed
        exact Or.inr ⟨rfl, ⟨hB, hrowN, hcolN, hprime, hrc0, hnostar⟩⟩
    · intro hM
      exact step_four_go_marks (N + 1) _ _ _ _ _ _ _ _ hM hgo

/-! Phase 5: the augmenting-path loop terminates within the buffer and its
flip preserves star uniqueness. -/

theorem covered_rows_card {N : ℕ} {A : ℕ → ℕ → ℕ} {rcov ccov : ℕ → ℕ}
    (hcs : ∀ r, r < N → rcov r = 1 → ∃ c, c < N ∧ A r c = 1)
    (hSC : StarColU N A)
    (hnsc : ∃ c0, c0 < N ∧ ccov c0 = 0 ∧ ∀ r, r < N → A r c0 ≠ 1) :
    ((Finset.range N).filter (fun r => rcov r = 1)).card ≤ N - 1 := by
  obtain ⟨c0, hc0N, -, hc0ns⟩ := hnsc
  have hmaps : ∀ r ∈ (Finset.range N).filter (fun r => rcov r = 1),
      (find_star_in_row r A N).getD 0 ∈ (Finset.range N).erase c0 := by
    intro r hr
    simp only [Finset.mem_filter, Finset.mem_range] at hr
    obtain ⟨c, hcN, hstar⟩ := hcs r hr.1 hr.2
    match hf : find_star_in_row r A N with
    | none => exact absurd hstar (find_star_in_row_none hf c hcN)
    | some c' =>
      obtain ⟨hc'N, hstar'⟩ := find_star_in_row_some hf
      simp only [Option.getD_some, Finset.mem_erase, Finset.mem_range]
      exact ⟨fun he => hc0ns r hr.1 (he ▸ hstar'), hc'N⟩
  have hinj : ∀ r ∈ (Finset.range N).filter (fun r => rcov r = 1),
      ∀ r' ∈ (Finset.range N).filter (fun r => rcov r = 1),
      (find_star_in_row r A N).getD 0 = (find_star_in_row r' A N).getD 0 → r = r' := by
    intro r hr r' hr' heq
    simp only [Finset.mem_filter, Finset.mem_range] at hr hr'
    obtain ⟨c, hcN, hstar⟩ := hcs r hr.1 hr.2
    obtain ⟨c', hc'N, hstar'⟩ := hcs r' hr'.1 hr'.2
    match hf : find_star_in_row r A N with
    | none => exact absurd hstar (find_star_in_row_none hf c hcN)
    | some d =>
      match hf' : find_star_in_row r' A N with
      | none => exact absurd hstar' (find_star_in_row_none hf' c' hc'N)
      | some d' =>
        rw [hf, hf'] at heq
        simp only [Option.getD_some] at heq
        obtain ⟨hdN, hd⟩ := find_star_in_row_some hf
        obtain ⟨hd'N, hd'⟩ := find_star_in_row_some hf'
        subst heq
        exact hSC r r' d hr.1 hr'.1 hdN hd hd'
  calc ((Finset.range N).filter (fun r => rcov r = 1)).card
      ≤ ((Finset.range N).erase c0).card := Finset.card_le_card_of_injOn _ hmaps hinj
    _ = N - 1 := by rw [Finset.card_erase_of_mem (Finset.mem_range.mpr hc0N), Finset.card_range]

theorem p5_rho_chain {N : ℕ} {A : ℕ → ℕ → ℕ} {rcov ρ : ℕ → ℕ}
    {path : ℕ → ℕ × ℕ} {k : ℕ} (P : P5 N A rcov ρ path k) :
    ∀ d i, 0 < d → i + d ≤ k → ρ ((path (2 * (i + d))).1) < ρ ((path (2 * i)).1) := by
  intro d
  induction d with
  | zero => intro i hd; omega
  | succ d ih =>
    intro i hd hik
    by_cases hd0 : d = 0
    · subst hd0
      have := P.rho_dec i (by omega)
      have he : 2 * (i + 1) = 2 * i + 2 := by ring
      rw [he]
      exact this
    · have h1 := ih i (by omega) (by omega)
      have h2 := P.rho_dec (i + d) (by omega)
      have he : 2 * (i + d) + 2 = 2 * (i + (d + 1)) := by ring
      rw [he] at h2
      exact lt_trans h2 h1

theorem p5_rows_ne {N : ℕ} {A : ℕ → ℕ → ℕ} {rcov ρ : ℕ → ℕ}
    {path : ℕ → ℕ × ℕ} {k : ℕ} (P : P5 N A rcov ρ path k) :
    ∀ i j, i ≤ k → j ≤ k → i ≠ j → (path (2 * i)).1 ≠ (path (2 * j)).1 := by
  have key : ∀ i j, i < j → j ≤ k → (path (2 * i)).1 ≠ (path (2 * j)).1 := by
    intro i j hij hjk heq
    have := p5_rho_chain P (j - i) i (by omega) (by omega)
    rw [show i + (j - i) = j by omega] at this
    rw [heq] at this
    omega
  intro i j hik hjk hne
  rcases Nat.lt_or_ge i j with h | h
  · exact key i j h hjk
  · exact fun heq => key j i (by omega) hik heq.symm

theorem p5_count_bound {N : ℕ} {A : ℕ → ℕ → ℕ} {rcov ccov ρ : ℕ → ℕ}
    {path : ℕ → ℕ × ℕ} {k : ℕ} (P : P5 N A rcov ρ path k)
    (hcs : ∀ r, r < N → rcov r = 1 → ∃ c, c < N ∧ A r c = 1)
    (hSC : StarColU N A)
    (hnsc : ∃ c0, c0 < N ∧ ccov c0 = 0 ∧ ∀ r, r < N → A r c0 ≠ 1) :
    k ≤ N - 1 := by
  have hsub : (Finset.range k).image (fun j => (path (2 * (j + 1))).1) ⊆
      (Finset.range N).filter (fun r => rcov r = 1) := by
    intro r hrmem
    simp only [Finset.mem_image, Finset.mem_range] at hrmem
    obtain ⟨j, hj, rfl⟩ := hrmem
    simp only [Finset.mem_filter, Finset.mem_range]
    exact ⟨P.prime_r (j + 1) (by omega), P.row_cov (j + 1) (by omega) (by omega)⟩
  have hcard : ((Finset.range k).image (fun j => (path (2 * (j + 1))).1)).card = k := by
    rw [Finset.card_image_of_injOn, Finset.card_range]
    intro i hi j hj heq
    simp only [Finset.mem_coe, Finset.mem_range] at hi hj
    by_contra hne
    exact p5_rows_ne P (i + 1) (j + 1) (by omega) (by omega) (by omega) heq
  have := Finset.card_le_card hsub
  rw [hcard] at this
  exact le_trans this (covered_rows_card hcs hSC hnsc)

theorem step_five_go_succ_none {N fuel pc : ℕ} {A : ℕ → ℕ → ℕ} {path : ℕ → ℕ × ℕ}
    (hstar : find_star_in_col (path (pc - 1)).2 A N = none) :
    step_five_go N A (fuel + 1) path pc = some (path, pc) := by
  simp only [step_five_go, hstar]

theorem step_five_go_succ_star {N fuel pc row col : ℕ} {A : ℕ → ℕ → ℕ}
    {path : ℕ → ℕ × ℕ}
    (hstar : find_star_in_col (path (pc - 1)).2 A N = some row)
    (hprime : find_prime_in_row
      ((Function.update path pc (row, (path (pc - 1)).2)) pc).1 A N = some col) :
    step_five_go N A (fuel + 1) path pc =
      step_five_go N A fuel
        (Function.update (Function.update path pc (row, (path (pc - 1)).2)) (pc + 1)
          (((Function.update path pc (row, (path (pc - 1)).2)) pc).1, col)) (pc + 2) := by
  simp only [step_five_go, hstar, hprime]

theorem step_five_go_spec {N : ℕ} {A : ℕ → ℕ → ℕ} {rcov ccov ρ : ℕ → ℕ}
    (hSC : StarColU N A)
    (hsu : ∀ r c, r < N → c < N → A r c = 1 → ccov c = 0 → rcov r = 1)
    (hcp : ∀ r, r < N → rcov r = 1 → ∃ c, c < N ∧ A r c = 2)
    (hpu : ∀ r c, r < N → c < N → A r c = 2 → ccov c = 0)
    (hcs : ∀ r, r < N → rcov r = 1 → ∃ c, c < N ∧ A r c = 1)
    (hnsc : ∃ c0, c0 < N ∧ ccov c0 = 0 ∧ ∀ r, r < N → A r c0 ≠ 1)
    (hrank : ∀ r c r', r < N → c < N → r' < N → A r c = 2 → A r' c = 1 → ρ r' < ρ r) :
    ∀ (fuel k : ℕ) (path : ℕ → ℕ × ℕ),
      P5 N A rcov ρ path k →
      N + 1 ≤ fuel + k →
      ∃ path' m, step_five_go N A fuel path (2 * k + 1) = some (path', 2 * m + 1) ∧
        k ≤ m ∧ m ≤ N - 1 ∧ P5 N A rcov ρ path' m ∧
        (∀ r, r < N → A r ((path' (2 * m)).2) ≠ 1) ∧
        (∀ i, i ≤ 2 * k → path' i = path i) := by
  intro fuel
  induction fuel with
  | zero =>
    intro k path P hfuel
    exfalso
    have := p5_count_bound P hcs hSC hnsc
    omega
  | succ fuel ih =>
    intro k path P hfuel
    have hpc1 : 2 * k + 1 - 1 = 2 * k := by omega
    match hstar : find_star_in_col (path (2 * k)).2 A N with
    | none =>
      have heq : step_five_go N A (fuel + 1) path (2 * k + 1) = some (path, 2 * k + 1) :=
        step_five_go_succ_none (by rw [hpc1]; exact hstar)
      exact ⟨path, k, heq, le_refl k, p5_count_bound P hcs hSC hnsc, P,
        find_star_in_col_none hstar, fun i _ => rfl⟩
    | some row =>
      obtain ⟨hrowN, hrowstar⟩ := find_star_in_col_some hstar
      have hRkN : (path (2 * k)).1 < N := P.prime_r k (le_refl k)
      have hCkN : (path (2 * k)).2 < N := P.prime_c k (le_refl k)
      have hCk_unc : ccov (path (2 * k)).2 = 0 :=
        hpu _ _ hRkN hCkN (P.prime_m k (le_refl k))
      have hrow_cov : rcov row = 1 := hsu row _ hrowN hCkN hrowstar hCk_unc
      obtain ⟨cp, hcpN, hcprime⟩ := hcp row hrowN hrow_cov
      have hupd1 : (Function.update path (2 * k + 1)
          (row, (path (2 * k + 1 - 1)).2) (2 * k + 1)).1 = row := by
        rw [Function.update_same]
      match hprime : find_prime_in_row row A N with
      | none =>
        exact absurd hcprime (find_prime_in_row_none hprime cp hcpN)
      | some col =>
        obtain ⟨hcolN, hcolprime⟩ := find_prime_in_row_some hprime
        have hunf := @step_five_go_succ_star N fuel (2 * k + 1) row col A path
          (by rw [hpc1]; exact hstar)
          ((congrArg (fun x => find_prime_in_row x A N) hupd1).trans hprime)
        rw [hupd1] at hunf
        set pnew : ℕ → ℕ × ℕ := Function.update
          (Function.update path (2 * k + 1) (row, (path (2 * k + 1 - 1)).2))
          (2 * k + 1 + 1) (row, col) with hpnew
        have hagree : ∀ i, i ≤ 2 * k → pnew i = path i := by
          intro i hi
          rw [hpnew, Function.update_noteq (by omega), Function.update_noteq (by omega)]
        have hv1 : pnew (2 * k + 1) = (row, (path (2 * k)).2) := by
          rw [hpnew, Function.update_noteq (by omega), Function.update_same, hpc1]
        have hv2 : pnew (2 * k + 2) = (row, col) := by
          rw [hpnew]
          rw [show 2 * k + 1 + 1 = 2 * k + 2 from by omega]
          rw [Function.update_same]
        have Pnew : P5 N A rcov ρ pnew (k + 1) := by
          refine ⟨?_, ?_, ?_, ?_, ?_, ?_, ?_, ?_, ?_⟩
          · intro j hj
            rcases Nat.lt_or_ge j (k + 1) with hjk | hjk
            · rw [hagree (2 * j) (by omega)]
              exact P.prime_r j (by omega)
            · rw [show j = k + 1 from by omega, show 2 * (k + 1) = 2 * k + 2 from by ring,
                hv2]
              exact hrowN
          · intro j hj
            rcases Nat.lt_or_ge j (k + 1) with hjk | hjk
            · rw [hagree (2 * j) (by omega)]
              exact P.prime_c j (by omega)
            · rw [show j = k + 1 from by omega, show 2 * (k + 1) = 2 * k + 2 from by ring,
                hv2]
              exact hcolN
          · intro j hj
            rcases Nat.lt_or_ge j (k + 1) with hjk | hjk
            · rw [hagree (2 * j) (by omega)]
              exact P.prime_m j (by omega)
            · rw [show j = k + 1 from by omega, show 2 * (k + 1) = 2 * k + 2 from by ring,
                hv2]
              exact hcolprime
          · intro j hj
            rcases Nat.lt_or_ge j k with hjk | hjk
            · rw [hagree (2 * j + 1) (by omega), hagree (2 * j + 2) (by omega),
                hagree (2 * j) (by omega)]
              exact P.star_v j hjk
            · rw [show j = k from by omega, hv1,
                show 2 * k + 2 = 2 * k + 2 from rfl, hv2, hagree (2 * k) (by omega)]
          · intro j hj
            rcases Nat.lt_or_ge j k with hjk | hjk
            · rw [hagree (2 * j + 2) (by omega), hagree (2 * j) (by omega)]
              exact P.star_m j hjk
            · rw [show j = k from by omega, hv2, hagree (2 * k) (by omega)]
              exact hrowstar
          · intro j hj
            rcases Nat.lt_or_ge j k with hjk | hjk
            · rw [hagree (2 * j + 2) (by omega), hagree (2 * j) (by omega)]
              exact P.rho_dec j hjk
            · rw [show j = k from by omega, hv2, hagree (2 * k) (by omega)]
              exact hrank _ _ row hRkN hCkN hrowN (P.prime_m k (le_refl k)) hrowstar
          · intro j hj1 hj2
            rcases Nat.lt_or_ge j (k + 1) with hjk | hjk
            · rw [hagree (2 * j) (by omega)]
              exact P.row_cov j hj1 (by omega)
            · rw [show j = k + 1 from by omega, show 2 * (k + 1) = 2 * k + 2 from by ring,
                hv2]
              exact hrow_cov
          · rw [hagree 0 (by omega)]
            exact P.row0_unc
          · rw [hagree 0 (by omega)]
            exact P.row0_nostar
        obtain ⟨path', m, heq, hkm, hmb, P', hfin, hpre⟩ :=
          ih (k + 1) pnew Pnew (by omega)
        refine ⟨path', m, ?_, by omega, hmb, P', hfin, ?_⟩
        · rw [hunf, show 2 * k + 1 + 2 = 2 * (k + 1) + 1 from by ring]
          exact heq
        · intro i hi
          rw [hpre i (by omega), hagree i hi]

theorem augment_path_succ {n : ℕ} {indM : ℕ → ℕ → ℕ} {path : ℕ → ℕ × ℕ} :
    augment_path (n + 1) indM path =
      (if (augment_path n indM path) (path n).1 (path n).2 = 1 then
        updf (augment_path n indM path) (path n).1 (path n).2 0
      else updf (augment_path n indM path) (path n).1 (path n).2 1) := by
  unfold augment_path
  rw [List.range_succ, List.foldl_append, List.foldl_cons, List.foldl_nil]

theorem augment_path_off {indM : ℕ → ℕ → ℕ} {path : ℕ → ℕ × ℕ} {r c : ℕ} :
    ∀ pc, (∀ p, p < pc → path p ≠ (r, c)) → augment_path pc indM path r c = indM r c := by
  intro pc
  induction pc with
  | zero => intro _; rfl
  | succ n ih =>
    intro hoff
    rw [augment_path_succ]
    have hne : ¬(r = (path n).1 ∧ c = (path n).2) := by
      intro hand
      exact hoff n (by omega) (Prod.ext hand.1.symm hand.2.symm)
    split
    · rw [updf_ne hne]; exact ih (fun p hp => hoff p (by omega))
    · rw [updf_ne hne]; exact ih (fun p hp => hoff p (by omega))

theorem augment_path_on {indM : ℕ → ℕ → ℕ} {path : ℕ → ℕ × ℕ} {r c : ℕ} :
    ∀ pc p0, p0 < pc → path p0 = (r, c) →
      (∀ q, q < pc → path q = (r, c) → q = p0) →
      augment_path pc indM path r c = if indM r c = 1 then 0 else 1 := by
  intro pc
  induction pc with
  | zero => intro p0 h; omega
  | succ n ih =>
    intro p0 hp0 hv huniq
    rw [augment_path_succ]
    by_cases hlast : p0 = n
    · subst hlast
      have hBval : augment_path p0 indM path r c = indM r c :=
        augment_path_off p0 (fun q hq hqv => absurd (huniq q (by omega) hqv) (by omega))
      rw [hv]
      dsimp only
      rw [hBval]
      by_cases hone : indM r c = 1
      · rw [if_pos hone, if_pos hone, updf_eq]
      · rw [if_neg hone, if_neg hone, updf_eq]
    · have hnlast : path n ≠ (r, c) := fun hv' => hlast (huniq n (by omega) hv').symm
      have hne : ¬(r = (path n).1 ∧ c = (path n).2) := by
        intro hand
        exact hnlast (Prod.ext hand.1.symm hand.2.symm)
      split <;> rw [updf_ne hne] <;>
        exact ih p0 (by omega) hv (fun q hq => huniq q (by omega))

theorem parity_pos {m p : ℕ} (hp : p < 2 * m + 1) :
    (∃ j, j ≤ m ∧ p = 2 * j) ∨ (∃ j, j < m ∧ p = 2 * j + 1) := by
  rcases Nat.even_or_odd p with ⟨j, hj⟩ | ⟨j, hj⟩
  · exact Or.inl ⟨j, by omega, by omega⟩
  · exact Or.inr ⟨j, by omega, by omega⟩

theorem p5_cols_ne {N m : ℕ} {A : ℕ → ℕ → ℕ} {rcov ρ : ℕ → ℕ} {path : ℕ → ℕ × ℕ}
    (P : P5 N A rcov ρ path m) (hSC : StarColU N A)
    (hfin : ∀ r, r < N → A r ((path (2 * m)).2) ≠ 1) :
    ∀ i j, i ≤ m → j ≤ m → i ≠ j → (path (2 * i)).2 ≠ (path (2 * j)).2 := by
  have key : ∀ i j, i < j → j ≤ m → (path (2 * i)).2 ≠ (path (2 * j)).2 := by
    intro i j hij hjm heq
    have him : i < m := lt_of_lt_of_le hij hjm
    have hstar_i := P.star_m i him
    have h2i : 2 * (i + 1) = 2 * i + 2 := by ring
    have hriN : (path (2 * i + 2)).1 < N := by rw [← h2i]; exact P.prime_r (i + 1) (by omega)
    by_cases hjm' : j < m
    · have hstar_j := P.star_m j hjm'
      have h2j : 2 * (j + 1) = 2 * j + 2 := by ring
      have hrjN : (path (2 * j + 2)).1 < N := by
        rw [← h2j]; exact P.prime_r (j + 1) (by omega)
      rw [heq] at hstar_i
      have hrow := hSC _ _ _ hriN hrjN (P.prime_c j hjm) hstar_i hstar_j
      exact p5_rows_ne P (i + 1) (j + 1) (by omega) (by omega) (by omega)
        (by rw [h2i, h2j]; exact hrow)
    · have hjm'' : j = m := by omega
      subst hjm''
      rw [heq] at hstar_i
      exact hfin _ hriN hstar_i
  intro i j him hjm hne heq
  rcases Nat.lt_or_ge i j with h | h
  · exact key i j h hjm heq
  · exact key j i (by omega) him heq.symm

theorem p5_cells_ne {N m : ℕ} {A : ℕ → ℕ → ℕ} {rcov ρ : ℕ → ℕ} {path : ℕ → ℕ × ℕ}
    (P : P5 N A rcov ρ path m) (hSC : StarColU N A)
    (hfin : ∀ r, r < N → A r ((path (2 * m)).2) ≠ 1) :
    ∀ p q, p < 2 * m + 1 → q < 2 * m + 1 → path p = path q → p = q := by
  have evenodd : ∀ i j, i ≤ m → j < m → path (2 * i) = path (2 * j + 1) → False := by
    intro i j him hjm heq
    have hsv := P.star_v j hjm
    rw [hsv] at heq
    have hr : (path (2 * i)).1 = (path (2 * j + 2)).1 := by rw [heq]
    have hc : (path (2 * i)).2 = (path (2 * j)).2 := by rw [heq]
    have h2j : 2 * (j + 1) = 2 * j + 2 := by ring
    have hij : i = j + 1 := by
      by_contra hne
      exact p5_rows_ne P i (j + 1) him (by omega) hne (by rw [h2j]; exact hr)
    exact p5_cols_ne P hSC hfin i j him (by omega) (by omega) hc
  intro p q hp hq heq
  rcases parity_pos hp with ⟨i, him, rfl⟩ | ⟨i, him, rfl⟩ <;>
    rcases parity_pos hq with ⟨j, hjm, rfl⟩ | ⟨j, hjm, rfl⟩
  · have hr : (path (2 * i)).1 = (path (2 * j)).1 := by rw [heq]
    by_contra hne
    exact p5_rows_ne P i j him hjm (by omega) hr
  · exact absurd (evenodd i j him hjm heq) id
  · exact absurd (evenodd j i hjm him heq.symm) id
  · have hsvi := P.star_v i him
    have hsvj := P.star_v j hjm
    rw [hsvi, hsvj] at heq
    rw [Prod.ext_iff] at heq
    have h2i : 2 * (i + 1) = 2 * i + 2 := by ring
    have h2j : 2 * (j + 1) = 2 * j + 2 := by ring
    have : i + 1 = j + 1 := by
      by_contra hne
      exact p5_rows_ne P (i + 1) (j + 1) (by omega) (by omega) hne
        (by rw [h2i, h2j]; exact heq.1)
    omega

theorem five_NA_star_cases {N m : ℕ} {A : ℕ → ℕ → ℕ} {rcov ρ : ℕ → ℕ}
    {path : ℕ → ℕ × ℕ} (P : P5 N A rcov ρ path m) (hSC : StarColU N A)
    (hfin : ∀ r, r < N → A r ((path (2 * m)).2) ≠ 1)
    {r c : ℕ} (hr : r < N) (hc : c < N)
    (h1 : erase_primes (augment_path (2 * m + 1) A path) N r c = 1) :
    ((∀ p, p < 2 * m + 1 → path p ≠ (r, c)) ∧ A r c = 1) ∨
      (∃ j, j ≤ m ∧ path (2 * j) = (r, c)) := by
  have hNA : erase_primes (augment_path (2 * m + 1) A path) N r c =
      if r < N ∧ c < N ∧ augment_path (2 * m + 1) A path r c = 2 then 0
      else augment_path (2 * m + 1) A path r c := rfl
  by_cases hoff : ∀ p, p < 2 * m + 1 → path p ≠ (r, c)
  · left
    refine ⟨hoff, ?_⟩
    rw [hNA, augment_path_off _ hoff] at h1
    split at h1
    · omega
    · exact h1
  · right
    push_neg at hoff
    obtain ⟨p0, hp0, hv⟩ := hoff
    have huniq : ∀ q, q < 2 * m + 1 → path q = (r, c) → q = p0 :=
      fun q hq hqv => p5_cells_ne P hSC hfin q p0 hq hp0 (hqv.trans hv.symm)
    have haug := @augment_path_on A path r c (2 * m + 1) p0 hp0 hv huniq
    rcases parity_pos hp0 with ⟨j, hjm, rfl⟩ | ⟨j, hjm, rfl⟩
    · exact ⟨j, hjm, hv⟩
    · exfalso
      have hsv := P.star_v j hjm
      have hstar : A r c = 1 := by
        rw [hsv] at hv
        rw [Prod.ext_iff] at hv
        obtain ⟨hv1, hv2⟩ := hv
        dsimp only at hv1 hv2
        rw [← hv1, ← hv2]
        exact P.star_m j hjm
      have haug0 : augment_path (2 * m + 1) A path r c = 0 := by
        rw [haug, if_pos hstar]
      rw [hNA, haug0] at h1
      split at h1 <;> omega

theorem five_star_row_unique {N m : ℕ} {A : ℕ → ℕ → ℕ} {rcov ρ : ℕ → ℕ}
    {path : ℕ → ℕ × ℕ} (P : P5 N A rcov ρ path m)
    (hSR : StarRowU N A) (hSC : StarColU N A)
    (hfin : ∀ r, r < N → A r ((path (2 * m)).2) ≠ 1) :
    StarRowU N (erase_primes (augment_path (2 * m + 1) A path) N) := by
  have offon : ∀ r c c', r < N → c < N → c' < N →
      (∀ p, p < 2 * m + 1 → path p ≠ (r, c)) → A r c = 1 →
      ∀ j', j' ≤ m → path (2 * j') = (r, c') → False := by
    intro r c c' hr hc hc' hoff hA j' hj'm hvj'
    by_cases hj0 : j' = 0
    · subst hj0
      have hr0 : (path 0).1 = r := by rw [show 2 * 0 = 0 from rfl] at hvj'; rw [hvj']
      exact P.row0_nostar c hc (by rw [hr0]; exact hA)
    · have h2 : 2 * (j' - 1) + 2 = 2 * j' := by omega
      have hstar := P.star_m (j' - 1) (by omega)
      rw [h2] at hstar
      have hrj : (path (2 * j')).1 = r := by rw [hvj']
      rw [hrj] at hstar
      have hcc : c = (path (2 * (j' - 1))).2 :=
        hSR r c _ hr hc (P.prime_c (j' - 1) (by omega)) hA hstar
      have hsv := P.star_v (j' - 1) (by omega)
      rw [h2, hrj] at hsv
      refine hoff (2 * (j' - 1) + 1) (by omega) ?_
      rw [hsv, ← hcc]
  intro r c c' hr hc hc' h1 h1'
  rcases five_NA_star_cases P hSC hfin hr hc h1 with ⟨hoff, hA⟩ | ⟨j, hjm, hvj⟩ <;>
    rcases five_NA_star_cases P hSC hfin hr hc' h1' with ⟨hoff', hA'⟩ | ⟨j', hj'm, hvj'⟩
  · exact hSR r c c' hr hc hc' hA hA'
  · exact absurd (offon r c c' hr hc hc' hoff hA j' hj'm hvj') id
  · exact absurd (offon r c' c hr hc' hc hoff' hA' j hjm hvj) id
  · have hrow : (path (2 * j)).1 = (path (2 * j')).1 := by rw [hvj, hvj']
    have hjj : j = j' := by
      by_contra hne
      exact p5_rows_ne P j j' hjm hj'm hne hrow
    subst hjj
    have : (r, c) = (r, c') := by rw [← hvj, ← hvj']
    rw [Prod.ext_iff] at this
    exact this.2

theorem five_star_col_unique {N m : ℕ} {A : ℕ → ℕ → ℕ} {rcov ρ : ℕ → ℕ}
    {path : ℕ → ℕ × ℕ} (P : P5 N A rcov ρ path m) (hSC : StarColU N A)
    (hfin : ∀ r, r < N → A r ((path (2 * m)).2) ≠ 1) :
    StarColU N (erase_primes (augment_path (2 * m + 1) A path) N) := by
  have offon : ∀ r r' c, r < N → r' < N → c < N →
      (∀ p, p < 2 * m + 1 → path p ≠ (r, c)) → A r c = 1 →
      ∀ j', j' ≤ m → path (2 * j') = (r', c) → False := by
    intro r r' c hr hr' hc hoff hA j' hj'm hvj'
    have hcj : (path (2 * j')).2 = c := by rw [hvj']
    by_cases hjm' : j' < m
    · have hstar := P.star_m j' hjm'
      rw [hcj] at hstar
      have h2 : 2 * (j' + 1) = 2 * j' + 2 := by ring
      have hrstarN : (path (2 * j' + 2)).1 < N := by
        rw [← h2]; exact P.prime_r (j' + 1) (by omega)
      have hrr : r = (path (2 * j' + 2)).1 := hSC r _ c hr hrstarN hc hA hstar
      have hsv := P.star_v j' hjm'
      rw [hcj] at hsv
      refine hoff (2 * j' + 1) (by omega) ?_
      rw [hsv, ← hrr]
    · have hj'e : j' = m := by omega
      subst hj'e
      rw [← hcj] at hA
      exact hfin r hr hA
  intro r r' c hr hr' hc h1 h1'
  rcases five_NA_star_cases P hSC hfin hr hc h1 with ⟨hoff, hA⟩ | ⟨j, hjm, hvj⟩ <;>
    rcases five_NA_star_cases P hSC hfin hr' hc h1' with ⟨hoff', hA'⟩ | ⟨j', hj'm, hvj'⟩
  · exact hSC r r' c hr hr' hc hA hA'
  · exact absurd (offon r r' c hr hr' hc hoff hA j' hj'm hvj') id
  · exact absurd (offon r' r c hr' hr hc hoff' hA' j hjm hvj) id
  · have hcol : (path (2 * j)).2 = (path (2 * j')).2 := by rw [hvj, hvj']
    have hjj : j = j' := by
      by_contra hne
      exact p5_cols_ne P hSC hfin j j' hjm hj'm hne hcol
    subst hjj
    have : (r, c) = (r', c) := by rw [← hvj, ← hvj']
    rw [Prod.ext_iff] at this
    exact this.1

theorem step_five_post {N : ℕ} {s s' : MState} (I5 : Step5Inv N s)
    (hmarks : ∀ r c, r < N → c < N → s.indM r c ≤ 2)
    (h : step_five N s = some s') :
    s'.step = 3 ∧ StarRowU N s'.indM ∧ StarColU N s'.indM ∧ NoPrimes N s'.indM ∧
    (∀ r, s'.rcov r = 0) ∧ (∀ c, s'.ccov c = 0) ∧
    (∀ r c, r < N → c < N → s'.indM r c ≤ 2) ∧
    s'.cost = s.cost ∧ s'.input = s.input ∧
    (∀ r c, r < N → c < N → s'.indM r c = 1 → s.indM r c = 1 ∨ s.indM r c = 2) := by
  obtain ⟨ρ, hrank⟩ := I5.rank
  have P0 : P5 N s.indM s.rcov ρ (Function.update s.path 0 (s.rpath0, s.cpath0)) 0 := by
    refine ⟨?_, ?_, ?_, ?_, ?_, ?_, ?_, ?_, ?_⟩
    · intro j hj
      have hj0 : j = 0 := by omega
      subst hj0
      exact I5.seed_row_lt
    · intro j hj
      have hj0 : j = 0 := by omega
      subst hj0
      exact I5.seed_col_lt
    · intro j hj
      have hj0 : j = 0 := by omega
      subst hj0
      exact I5.seed_prime
    · intro j hj; omega
    · intro j hj; omega
    · intro j hj; omega
    · intro j hj1 hj2; omega
    · exact I5.seed_unc
    · exact I5.seed_nostar
  obtain ⟨path', m, heq, -, hmb, P', hfin, -⟩ :=
    step_five_go_spec I5.starCol I5.star_unc_col I5.covRow_prime I5.prime_unc_col
      I5.covRow_star I5.nostar_col hrank (N + 1) 0
      (Function.update s.path 0 (s.rpath0, s.cpath0)) P0 (by omega)
  rw [show 2 * 0 + 1 = 1 from rfl] at heq
  unfold step_five at h
  rw [heq] at h
  injection h with h
  subst h
  refine ⟨rfl, five_star_row_unique P' I5.starRow I5.starCol hfin,
    five_star_col_unique P' I5.starCol hfin, ?_, fun r => rfl, fun c => rfl, ?_, rfl, rfl, ?_⟩
  · intro r c hr hc
    show ¬(erase_primes (augment_path (2 * m + 1) s.indM path') N r c = 2)
    have hNA : erase_primes (augment_path (2 * m + 1) s.indM path') N r c =
        if r < N ∧ c < N ∧ augment_path (2 * m + 1) s.indM path' r c = 2 then 0
        else augment_path (2 * m + 1) s.indM path' r c := rfl
    rw [hNA]
    split
    · omega
    · intro h2
      next hneg => exact hneg ⟨hr, hc, h2⟩
  · intro r c hr hc
    show erase_primes (augment_path (2 * m + 1) s.indM path') N r c ≤ 2
    have hNA : erase_primes (augment_path (2 * m + 1) s.indM path') N r c =
        if r < N ∧ c < N ∧ augment_path (2 * m + 1) s.indM path' r c = 2 then 0
        else augment_path (2 * m + 1) s.indM path' r c := rfl
    rw [hNA]
    split
    · omega
    · by_cases hoff : ∀ p, p < 2 * m + 1 → path' p ≠ (r, c)
      · rw [augment_path_off _ hoff]
        exact hmarks r c hr hc
      · push_neg at hoff
        obtain ⟨p0, hp0, hvp⟩ := hoff
        rw [@augment_path_on s.indM path' r c (2 * m + 1) p0 hp0 hvp
          (fun q hq hqv => p5_cells_ne P' I5.starCol hfin q p0 hq hp0
            (hqv.trans hvp.symm))]
        split <;> omega
  · intro r c hr hc h1
    rcases five_NA_star_cases P' I5.starCol hfin hr hc h1 with ⟨-, hA⟩ | ⟨j, hjm, hvj⟩
    · exact Or.inl hA
    · right
      have hp := P'.prime_m j hjm
      rw [hvj] at hp
      exact hp

/-! The master invariant is preserved by the dispatcher. -/

theorem dispatch_inv {N : ℕ} {s s' : MState} (I : Inv N s) (h : dispatch N s = some s') :
    Inv N s' := by
  unfold dispatch at h
  split at h
  · -- step 1: row reduction
    rename_i hstep
    injection h with h
    subst h
    have hz := I.at12 (Or.inl hstep)
    have h2 : (step_one N s).step = 2 := rfl
    refine ⟨I.marks_le, fun _ => hz, ?_, ?_, ?_, ?_, ?_⟩
    · intro hc; omega
    · intro hc; rcases hc with hc | hc <;> omega
    · intro hc; omega
    · intro hc; omega
    · omega
  · -- step 2: initial starring
    rename_i hstep
    injection h with h
    subst h
    obtain ⟨hSR, hSC, hNP, hle, hrc, hcc, hstep3⟩ :=
      @step_two_post N s (I.at12 (Or.inr hstep))
    refine ⟨hle, ?_, fun _ => ⟨hSR, hSC, hNP, hrc, hcc⟩, ?_, ?_, ?_, ?_⟩
    · intro hc; rcases hc with hc | hc <;> omega
    · intro hc; rcases hc with hc | hc <;> omega
    · intro hc; omega
    · intro hc; omega
    · omega
  · -- step 3: column covering
    rename_i hstep
    injection h with h
    subst h
    obtain ⟨hSR, hSC, hNP, hrc, hcc⟩ := I.at3 hstep
    have hframe := @step_three_frame N s
    have hsplit := @step_three_step N s
    have hmark : ∀ r c, r < N → c < N → (step_three N s).indM r c ≤ 2 := by
      rw [hframe.1]; exact I.marks_le
    refine ⟨hmark, ?_, ?_, ?_, ?_, ?_, ?_⟩
    · intro hc; rcases hc with hc | hc <;> rcases hsplit with h7 | h4 <;> omega
    · intro hc; rcases hsplit with h7 | h4 <;> omega
    · intro hc
      rcases hc with hc | hc
      · exact step_three_four hSR hSC hNP hrc hcc hc
      · rcases hsplit with h7 | h4 <;> omega
    · intro hc; rcases hsplit with h7 | h4 <;> omega
    · intro hc
      refine ⟨?_, ?_, ?_, ?_⟩
      · rw [hframe.1]; exact hSR
      · rw [hframe.1]; exact hSC
      · rw [hframe.1]; exact hNP
      · intro c hcN
        obtain ⟨r, hrN, hstar⟩ := step_three_seven hcc hc c hcN
        exact ⟨r, hrN, by rw [hframe.1]; exact hstar⟩
    · rcases hsplit with h7 | h4 <;> omega
  · -- step 4: priming loop
    rename_i hstep
    have E := I.at46 (Or.inl hstep)
    obtain ⟨hpost, hmark⟩ := step_four_post E h
    rcases hpost with ⟨h6, E'⟩ | ⟨h5, I5⟩
    · refine ⟨hmark I.marks_le, ?_, ?_, fun _ => E', ?_, ?_, ?_⟩
      · intro hc; rcases hc with hc | hc <;> omega
      · intro hc; omega
      · intro hc; omega
      · intro hc; omega
      · omega
    · refine ⟨hmark I.marks_le, ?_, ?_, ?_, fun _ => I5, ?_, ?_⟩
      · intro hc; rcases hc with hc | hc <;> omega
      · intro hc; omega
      · intro hc; rcases hc with hc | hc <;> omega
      · intro hc; omega
      · omega
  · -- step 5: augmenting path
    rename_i hstep
    have I5 := I.at5 hstep
    obtain ⟨h3, hSR, hSC, hNP, hrc, hcc, hle, -, -, -⟩ := step_five_post I5 I.marks_le h
    refine ⟨hle, ?_, fun _ => ⟨hSR, hSC, hNP, hrc, hcc⟩, ?_, ?_, ?_, ?_⟩
    · intro hc; rcases hc with hc | hc <;> omega
    · intro hc; rcases hc with hc | hc <;> omega
    · intro hc; omega
    · intro hc; omega
    · omega
  · -- step 6: matrix adjustment
    rename_i hstep
    injection h with h
    subst h
    have E := I.at46 (Or.inr hstep)
    have h4 : (step_six N s).step = 4 := rfl
    refine ⟨I.marks_le, ?_, ?_, fun _ => E, ?_, ?_, ?_⟩
    · intro hc; rcases hc with hc | hc <;> omega
    · intro hc; omega
    · intro hc; omega
    · intro hc; omega
    · omega
  · -- step 7 or unknown: state unchanged
    injection h with h
    subst h
    exact I

theorem initState_inv (N : ℕ) (input : ℕ → ℕ → ℚ) : Inv N (initState N input) := by
  have h1 : (initState N input).step = 1 := rfl
  refine ⟨?_, ?_, ?_, ?_, ?_, ?_, ?_⟩
  · intro r c _ _; exact Nat.zero_le _
  · intro _; exact ⟨fun _ _ => rfl, fun _ => rfl, fun _ => rfl⟩
  · intro hc; omega
  · intro hc; rcases hc with hc | hc <;> omega
  · intro hc; omega
  · intro hc; omega
  · omega

theorem runSteps_inv {N : ℕ} : ∀ (k : ℕ) (s s' : MState),
    Inv N s → runSteps N k s = some s' → Inv N s' := by
  intro k
  induction k with
  | zero => intro s s' I h; injection h with h; subst h; exact I
  | succ k ih =>
    intro s s' I h
    unfold runSteps at h
    match hd : dispatch N s with
    | none => rw [hd] at h; exact Option.noConfusion h
    | some s₁ =>
      rw [hd] at h
      exact ih s₁ s' (dispatch_inv I hd) h

theorem reachable_inv {N : ℕ} {input : ℕ → ℕ → ℚ} {s : MState}
    (h : Reachable N input s) : Inv N s := by
  obtain ⟨k, hk⟩ := h
  exact runSteps_inv k _ s (initState_inv N input) hk

/-! Phase 6 helper: the fold of `find_smallest` is bounded by every cell of
the uncovered region. -/

theorem foldl_min_le_self {g : ℚ → ℕ → ℚ} (hg : ∀ a x, g a x ≤ a) :
    ∀ (l : List ℕ) (a : ℚ), l.foldl g a ≤ a := by
  intro l
  induction l with
  | nil => intro a; exact le_refl a
  | cons y ys ih => intro a; exact le_trans (ih (g a y)) (hg a y)

theorem foldl_min_le_mem {g : ℚ → ℕ → ℚ} (hg : ∀ a x, g a x ≤ a) {x : ℕ} {B : ℚ}
    (hx : ∀ a, g a x ≤ B) : ∀ (l : List ℕ) (a : ℚ), x ∈ l → l.foldl g a ≤ B := by
  intro l
  induction l with
  | nil => intro a hmem; exact absurd hmem (List.not_mem_nil x)
  | cons y ys ih =>
    intro a hmem
    rcases List.mem_cons.mp hmem with rfl | hmem
    · exact le_trans (foldl_min_le_self hg ys (g a x)) (hx a)
    · exact ih (g a y) hmem

theorem find_smallest_le {N r c : ℕ} {cost : ℕ → ℕ → ℚ} {rcov ccov : ℕ → ℕ} {mv : ℚ}
    (hr : r < N) (hc : c < N) (hrc : rcov r = 0) (hcc : ccov c = 0) :
    find_smallest mv cost rcov ccov N ≤ cost r c := by
  have hstep : ∀ (r' : ℕ) (a : ℚ) (c' : ℕ),
      (if rcov r' = 0 ∧ ccov c' = 0 then (if a > cost r' c' then cost r' c' else a)
        else a) ≤ a := by
    intro r' a c'
    split
    · split
      · exact le_of_lt (by assumption)
      · exact le_refl a
    · exact le_refl a
  have hinner_le : ∀ (r' : ℕ) (a : ℚ),
      (List.range N).foldl
        (fun mv c' => if rcov r' = 0 ∧ ccov c' = 0 then
          (if mv > cost r' c' then cost r' c' else mv) else mv) a ≤ a :=
    fun r' a => foldl_min_le_self (fun a' x => hstep r' a' x) (List.range N) a
  have hcell : ∀ a : ℚ,
      (List.range N).foldl
        (fun mv c' => if rcov r = 0 ∧ ccov c' = 0 then
          (if mv > cost r c' then cost r c' else mv) else mv) a ≤ cost r c := by
    intro a
    refine foldl_min_le_mem (fun a' x => hstep r a' x) ?_ (List.range N) a
      (List.mem_range.mpr hc)
    intro a'
    rw [if_pos ⟨hrc, hcc⟩]
    split
    · exact le_refl _
    · exact le_of_not_gt (by assumption)
  exact foldl_min_le_mem (fun a x => hinner_le x a) hcell (List.range N) mv
    (List.mem_range.mpr hr)

/-! Claim C5: star uniqueness at every reachable state. -/

/-- Claim C5: in every state reachable during a solve — after each phase of
the dispatcher — the mark matrix `indM` holds at most one starred mark
(value 1) in each row and at most one in each column. -/
theorem reachable_star_unique (N : ℕ) (input : ℕ → ℕ → ℚ) (s : MState)
    (h : Reachable N input s) : StarRowU N s.indM ∧ StarColU N s.indM := by
  have I := reachable_inv h
  have hrange := I.step_range
  have h17 : s.step = 1 ∨ s.step = 2 ∨ s.step = 3 ∨ s.step = 4 ∨ s.step = 5 ∨
      s.step = 6 ∨ s.step = 7 := by omega
  have hzero : (s.step = 1 ∨ s.step = 2) → StarRowU N s.indM ∧ StarColU N s.indM := by
    intro h12
    have hz := (I.at12 h12).1
    constructor
    · intro r c c' _ _ _ h1 _
      rw [hz] at h1
      exact absurd h1 (by omega)
    · intro r r' c _ _ _ h1 _
      rw [hz] at h1
      exact absurd h1 (by omega)
  rcases h17 with h | h | h | h | h | h | h
  · exact hzero (Or.inl h)
  · exact hzero (Or.inr h)
  · exact ⟨(I.at3 h).1, (I.at3 h).2.1⟩
  · exact ⟨(I.at46 (Or.inl h)).starRow, (I.at46 (Or.inl h)).starCol⟩
  · exact ⟨(I.at5 h).starRow, (I.at5 h).starCol⟩
  · exact ⟨(I.at46 (Or.inr h)).starRow, (I.at46 (Or.inr h)).starCol⟩
  · exact ⟨(I.at7 h).1, (I.at7 h).2.1⟩

/-- Witness for C5 at the initial state of a concrete 2 × 2 solve. -/
theorem reachable_star_unique_witness :
    Reachable 2 zeroQ (initState 2 zeroQ) ∧
      (StarRowU 2 (initState 2 zeroQ).indM ∧ StarColU 2 (initState 2 zeroQ).indM) :=
  ⟨⟨0, rfl⟩, reachable_star_unique 2 zeroQ (initState 2 zeroQ) ⟨0, rfl⟩⟩

/-! Claim C10: phase 6 always sees a doubly uncovered cell. -/

/-- Claim C10: whenever phase 6 is about to run in a reachable solver state,
some cell has both its row and its column uncovered; `find_smallest`
therefore returns a true minimum bounded by that cell, and (as long as that
cell's value is below `DBL_MAX`, which always holds for values representable
as finite doubles) `minval` is not left at its `DBL_MAX` sentinel. -/
theorem step_six_has_uncovered_cell (N : ℕ) (input : ℕ → ℕ → ℚ) (s : MState)
    (h : Reachable N input s) (h6 : s.step = 6) :
    ∃ r c, r < N ∧ c < N ∧ s.rcov r = 0 ∧ s.ccov c = 0 ∧
      find_smallest DBL_MAX s.cost s.rcov s.ccov N ≤ s.cost r c ∧
      (s.cost r c < DBL_MAX → find_smallest DBL_MAX s.cost s.rcov s.ccov N < DBL_MAX) := by
  have E := (reachable_inv h).at46 (Or.inr h6)
  obtain ⟨c0, hc0N, hc0unc, -⟩ := E.nostar_col
  have hrow : ∃ r, r < N ∧ s.rcov r = 0 := by
    by_contra hno
    push_neg at hno
    have hall : (Finset.range N).filter (fun r => s.rcov r = 1) = Finset.range N := by
      apply Finset.filter_true_of_mem
      intro r hrmem
      rcases E.rcov01 r with h0 | h1
      · exact absurd h0 (hno r (Finset.mem_range.mp hrmem))
      · exact h1
    have hcard := covered_rows_card E.covRow_star E.starCol E.nostar_col
    rw [hall, Finset.card_range] at hcard
    omega
  obtain ⟨r, hrN, hrunc⟩ := hrow
  have hle := @find_smallest_le N r c0 s.cost s.rcov s.ccov DBL_MAX hrN hc0N hrunc hc0unc
  exact ⟨r, c0, hrN, hc0N, hrunc, hc0unc, hle, fun hlt => lt_of_le_of_lt hle hlt⟩

/-- Witness for C10 at the concrete phase-6 state of the `ceM` solve. -/
theorem step_six_has_uncovered_cell_witness :
    (Reachable 3 ceM ceState ∧ ceState.step = 6) ∧
      (∃ r c, r < 3 ∧ c < 3 ∧ ceState.rcov r = 0 ∧ ceState.ccov c = 0 ∧
        find_smallest DBL_MAX ceState.cost ceState.rcov ceState.ccov 3 ≤ ceState.cost r c ∧
        (ceState.cost r c < DBL_MAX →
          find_smallest DBL_MAX ceState.cost ceState.rcov ceState.ccov 3 < DBL_MAX)) :=
  ⟨⟨⟨4, by with_unfolding_all rfl⟩, by with_unfolding_all rfl⟩,
    step_six_has_uncovered_cell 3 ceM ceState ⟨4, by with_unfolding_all rfl⟩
      (by with_unfolding_all rfl)⟩

/-! Claim C6: the path buffer stays within its 2N bound. -/

theorem step_five_loop_result {N : ℕ} {s : MState} (I5 : Step5Inv N s) :
    ∃ path' m, step_five_go N s.indM (N + 1)
        (Function.update s.path 0 (s.rpath0, s.cpath0)) 1 = some (path', 2 * m + 1) ∧
      m ≤ N - 1 := by
  obtain ⟨ρ, hrank⟩ := I5.rank
  have P0 : P5 N s.indM s.rcov ρ (Function.update s.path 0 (s.rpath0, s.cpath0)) 0 := by
    refine ⟨?_, ?_, ?_, ?_, ?_, ?_, ?_, ?_, ?_⟩
    · intro j hj
      have hj0 : j = 0 := by omega
      subst hj0
      exact I5.seed_row_lt
    · intro j hj
      have hj0 : j = 0 := by omega
      subst hj0
      exact I5.seed_col_lt
    · intro j hj
      have hj0 : j = 0 := by omega
      subst hj0
      exact I5.seed_prime
    · intro j hj; omega
    · intro j hj; omega
    · intro j hj; omega
    · intro j hj1 hj2; omega
    · exact I5.seed_unc
    · exact I5.seed_nostar
  obtain ⟨path', m, heq, -, hmb, -, -, -⟩ :=
    step_five_go_spec I5.starCol I5.star_unc_col I5.covRow_prime I5.prime_unc_col
      I5.covRow_star I5.nostar_col hrank (N + 1) 0
      (Function.update s.path 0 (s.rpath0, s.cpath0)) P0 (by omega)
  rw [show 2 * 0 + 1 = 1 from rfl] at heq
  exact ⟨path', m, heq, hmb⟩

/-- Claim C6: whenever phase 5 runs in a reachable state, the path loop
finishes on its own with `path_count = 2m + 1 ≤ 2N − 1`, so every write
`path.at(path_count − 1, ·)` it performed targeted an index below `2N`,
inside the `2N × 2` buffer allocated by `hungarian` (and the out-of-model
branches of the embedded loop are not taken). -/
theorem step_five_path_bounded (N : ℕ) (input : ℕ → ℕ → ℚ) (s : MState)
    (h : Reachable N input s) (h5 : s.step = 5) :
    ∃ path' m, step_five_go N s.indM (N + 1)
        (Function.update s.path 0 (s.rpath0, s.cpath0)) 1 = some (path', 2 * m + 1) ∧
      2 * m + 1 ≤ 2 * N - 1 := by
  have I5 := (reachable_inv h).at5 h5
  obtain ⟨path', m, heq, hm⟩ := step_five_loop_result I5
  have hN1 : 1 ≤ N := by have := I5.seed_row_lt; omega
  exact ⟨path', m, heq, by omega⟩

/-- Witness for C6 at the concrete phase-5 state of the `ceM` solve. -/
theorem step_five_path_bounded_witness :
    (Reachable 3 ceM ce5State ∧ ce5State.step = 5) ∧
      (∃ path' m, step_five_go 3 ce5State.indM 4
          (Function.update ce5State.path 0 (ce5State.rpath0, ce5State.cpath0)) 1 =
            some (path', 2 * m + 1) ∧ 2 * m + 1 ≤ 2 * 3 - 1) :=
  ⟨⟨⟨6, by with_unfolding_all rfl⟩, by with_unfolding_all rfl⟩,
    step_five_path_bounded 3 ceM ce5State ⟨6, by with_unfolding_all rfl⟩
      (by with_unfolding_all rfl)⟩

/-! Claim C2: the returned matrix is a permutation matrix. -/

theorem runToDone_inv {N : ℕ} : ∀ (fuel : ℕ) (s s' : MState), Inv N s →
    runToDone N fuel s = some s' → Inv N s' ∧ s'.step = 7 := by
  intro fuel
  induction fuel with
  | zero =>
    intro s s' I h
    unfold runToDone at h
    split at h
    · next h7 => injection h with h; subst h; exact ⟨I, h7⟩
    · exact Option.noConfusion h
  | succ fuel ih =>
    intro s s' I h
    unfold runToDone at h
    split at h
    · next h7 => injection h with h; subst h; exact ⟨I, h7⟩
    · match hd : dispatch N s with
      | none => rw [hd] at h; exact Option.noConfusion h
      | some s₁ => rw [hd] at h; exact ih s₁ s' (dispatch_inv I hd) h

theorem at7_perm {N : ℕ} {A : ℕ → ℕ → ℕ} (hSR : StarRowU N A) (hSC : StarColU N A)
    (hNP : NoPrimes N A) (hle : ∀ r c, r < N → c < N → A r c ≤ 2)
    (hcols : ∀ c, c < N → ∃ r, r < N ∧ A r c = 1) :
    IsPermMatrix N A := by
  have hf : ∀ c, c < N → (find_star_in_col c A N).getD 0 < N ∧
      A ((find_star_in_col c A N).getD 0) c = 1 := by
    intro c hc
    obtain ⟨r, hrN, hstar⟩ := hcols c hc
    match hfind : find_star_in_col c A N with
    | none => exact absurd hstar (find_star_in_col_none hfind r hrN)
    | some r' =>
      obtain ⟨hr'N, hstar'⟩ := find_star_in_col_some hfind
      exact ⟨hr'N, hstar'⟩
  have hsurj : ∀ r ∈ Finset.range N, ∃ c, ∃ _ : c ∈ Finset.range N,
      r = (find_star_in_col c A N).getD 0 := by
    apply Finset.surj_on_of_inj_on_of_card_le
      (fun c _ => (find_star_in_col c A N).getD 0)
    · intro c hcm
      exact Finset.mem_range.mpr (hf c (Finset.mem_range.mp hcm)).1
    · intro c c' hcm hc'm heq
      have h1 := hf c (Finset.mem_range.mp hcm)
      have h2 := hf c' (Finset.mem_range.mp hc'm)
      rw [heq] at h1
      exact hSR _ c c' h2.1 (Finset.mem_range.mp hcm) (Finset.mem_range.mp hc'm) h1.2 h2.2
    · exact le_refl _
  refine ⟨?_, ?_, ?_⟩
  · intro r hrN
    obtain ⟨c, hcm, hre⟩ := hsurj r (Finset.mem_range.mpr hrN)
    have hfc := hf c (Finset.mem_range.mp hcm)
    refine ⟨c, ⟨Finset.mem_range.mp hcm, by rw [hre]; exact hfc.2⟩, ?_⟩
    intro c' hc'
    exact hSR r c' c hrN hc'.1 (Finset.mem_range.mp hcm) hc'.2 (by rw [hre]; exact hfc.2)
  · intro c hcN
    obtain ⟨r, hrN, hstar⟩ := hcols c hcN
    refine ⟨r, ⟨hrN, hstar⟩, ?_⟩
    intro r' hr'
    exact hSC r' r c hr'.1 hrN hcN hr'.2 hstar
  · intro r c hrN hcN
    have h1 := hle r c hrN hcN
    have h2 := hNP r c hrN hcN
    omega

/-- Claim C2: whatever assignment matrix `hungarian` returns encodes a
permutation — exactly one entry 1 per row and per column, every other
entry 0. -/
theorem hungarian_returns_permutation (input : ℕ → ℕ → ℚ) (N fuel : ℕ)
    (A : ℕ → ℕ → ℕ) (h : hungarian input N fuel = some A) : IsPermMatrix N A := by
  unfold hungarian at h
  obtain ⟨s', hrun, hA⟩ := Option.map_eq_some'.mp h
  subst hA
  obtain ⟨I, h7⟩ := runToDone_inv fuel _ s' (initState_inv N input) hrun
  obtain ⟨hSR, hSC, hNP, hcols⟩ := I.at7 h7
  exact at7_perm hSR hSC hNP I.marks_le hcols

/-- Witness for C2 on the concrete 3 × 3 solve of `ceM`. -/
theorem hungarian_returns_permutation_witness :
    hungarian ceM 3 30 = some ceSol ∧ IsPermMatrix 3 ceSol :=
  ⟨by with_unfolding_all rfl,
    hungarian_returns_permutation ceM 3 30 ceSol (by with_unfolding_all rfl)⟩

/-! Cost-structure lemmas for optimality. -/

theorem foldl_pres_mem {α β : Type} {F : α → β → α} {P : α → Prop} :
    ∀ (l : List β), (∀ t x, x ∈ l → P t → P (F t x)) →
      ∀ (t : α), P t → P (l.foldl F t) := by
  intro l
  induction l with
  | nil => intro _ t ht; exact ht
  | cons x xs ih =>
    intro hF t ht
    rw [List.foldl_cons]
    exact ih (fun t' y hy => hF t' y (List.mem_cons_of_mem _ hy))
      _ (hF t x (List.mem_cons_self _ _) ht)

theorem foldl_min_le_q : ∀ (l : List ℚ) (a x : ℚ), x ∈ l → l.foldl min a ≤ x := by
  intro l
  induction l with
  | nil => intro a x hx; exact absurd hx (List.not_mem_nil x)
  | cons y ys ih =>
    intro a x hx
    rcases List.mem_cons.mp hx with rfl | hx
    · rw [List.foldl_cons]
      calc ys.foldl min (min a x) ≤ min a x := by
            clear ih hx
            induction ys generalizing a x with
            | nil => exact le_refl _
            | cons z zs ihz =>
                rw [List.foldl_cons]
                exact le_trans (ihz (min a x) z) (min_le_left _ _)
        _ ≤ x := min_le_right a x
    · rw [List.foldl_cons]
      exact ih (min a y) x hx

theorem rowMin_le {N r c : ℕ} {cost : ℕ → ℕ → ℚ} (hc : c < N) :
    rowMin cost N r ≤ cost r c := by
  exact foldl_min_le_q _ _ _ (List.mem_map_of_mem _ (List.mem_range.mpr hc))

theorem find_smallest_mem {N : ℕ} {cost : ℕ → ℕ → ℚ} {rcov ccov : ℕ → ℕ} {mv : ℚ} :
    find_smallest mv cost rcov ccov N = mv ∨
      ∃ r c, r < N ∧ c < N ∧ rcov r = 0 ∧ ccov c = 0 ∧
        find_smallest mv cost rcov ccov N = cost r c := by
  have main : ∀ t : ℚ,
      (t = mv ∨ ∃ r c, r < N ∧ c < N ∧ rcov r = 0 ∧ ccov c = 0 ∧ t = cost r c) →
      ((List.range N).foldl
        (fun mv' r =>
          (List.range N).foldl
            (fun mv'' c =>
              if rcov r = 0 ∧ ccov c = 0 then
                (if mv'' > cost r c then cost r c else mv'') else mv'')
            mv') t = mv ∨
        ∃ r c, r < N ∧ c < N ∧ rcov r = 0 ∧ ccov c = 0 ∧
          (List.range N).foldl
            (fun mv' r =>
              (List.range N).foldl
                (fun mv'' c =>
                  if rcov r = 0 ∧ ccov c = 0 then
                    (if mv'' > cost r c then cost r c else mv'') else mv'')
                mv') t = cost r c) := by
    refine fun t ht => @foldl_pres_mem ℚ ℕ _
      (fun q => q = mv ∨ ∃ r c, r < N ∧ c < N ∧ rcov r = 0 ∧ ccov c = 0 ∧ q = cost r c)
      (List.range N) ?_ t ht
    intro t' r hrmem ht'
    have hrN : r < N := List.mem_range.mp hrmem
    refine @foldl_pres_mem ℚ ℕ _
      (fun q => q = mv ∨ ∃ r c, r < N ∧ c < N ∧ rcov r = 0 ∧ ccov c = 0 ∧ q = cost r c)
      (List.range N) ?_ t' ht'
    intro t'' c hcmem ht''
    have hcN : c < N := List.mem_range.mp hcmem
    split
    · split
      · next hcond _ => exact Or.inr ⟨r, c, hrN, hcN, hcond.1, hcond.2, rfl⟩
      · exact ht''
    · exact ht''
  exact main mv (Or.inl rfl)

theorem DBL_MAX_pos : 0 < DBL_MAX := by norm_num [DBL_MAX]

theorem step_six_cost_change {N : ℕ} (s : MState) {r c : ℕ} (hr : r < N) (hc : c < N) :
    (step_six N s).cost r c =
      s.cost r c + (if s.rcov r = 1 then find_smallest DBL_MAX s.cost s.rcov s.ccov N else 0)
        - (if s.ccov c = 0 then find_smallest DBL_MAX s.cost s.rcov s.ccov N else 0) := by
  simp [step_six, hr, hc]

theorem find_smallest_nonneg {N : ℕ} {s : MState}
    (hnn : ∀ r c, r < N → c < N → 0 ≤ s.cost r c) :
    0 ≤ find_smallest DBL_MAX s.cost s.rcov s.ccov N := by
  rcases @find_smallest_mem N s.cost s.rcov s.ccov DBL_MAX with
    h | ⟨r, c, hrN, hcN, -, -, h⟩
  · rw [h]; exact le_of_lt DBL_MAX_pos
  · rw [h]; exact hnn r c hrN hcN

/-! Preservation of the cost-structure invariant through every phase. -/

theorem step_two_stars_zero {N : ℕ} {s : MState} (h0 : ∀ r c, s.indM r c = 0) :
    ∀ r c, r < N → c < N → (step_two N s).indM r c = 1 → s.cost r c = 0 := by
  have main := @foldl_pres _ _ (step_two_row N s.cost)
    (fun t => ∀ r c, r < N → c < N → t.1 r c = 1 → s.cost r c = 0) ?_
    (List.range N) (s.indM, s.rcov, s.ccov) ?_
  · exact main
  · intro t row ht r c hr hc h1
    unfold step_two_row at h1
    match hfind : (List.range N).find?
        (fun c => decide (s.cost row c = 0 ∧ t.2.1 row = 0 ∧ t.2.2 c = 0)) with
    | none => rw [hfind] at h1; exact ht r c hr hc h1
    | some cf =>
      rw [hfind] at h1
      dsimp only at h1
      by_cases he : r = row ∧ c = cf
      · obtain ⟨rfl, rfl⟩ := he
        have hp := List.find?_some hfind
        rw [decide_eq_true_iff] at hp
        exact hp.1
      · rw [updf_ne he] at h1
        exact ht r c hr hc h1
  · intro r c _ _ h1
    have h1' : s.indM r c = 1 := h1
    rw [h0 r c] at h1'
    exact absurd h1' (by omega)

theorem step_four_go_cinv {N : ℕ} {cost : ℕ → ℕ → ℚ} :
    ∀ (fuel : ℕ) (indM : ℕ → ℕ → ℕ) (rcov ccov : ℕ → ℕ)
      (M2 : ℕ → ℕ → ℕ) (rc2 cc2 : ℕ → ℕ) (st2 : ℕ) (seed2 : Option (ℕ × ℕ)),
      EpisodeInv N indM rcov ccov →
      (∀ r c, r < N → c < N → indM r c = 1 → cost r c = 0) →
      (∀ r c, r < N → c < N → indM r c = 2 → cost r c = 0) →
      (∀ r c, r < N → c < N → indM r c = 1 →
        (rcov r = 1 ∧ ccov c = 0) ∨ (rcov r = 0 ∧ ccov c = 1)) →
      step_four_go N cost fuel indM rcov ccov = some (M2, rc2, cc2, st2, seed2) →
      (∀ r c, r < N → c < N → M2 r c = 1 → cost r c = 0) ∧
      (∀ r c, r < N → c < N → M2 r c = 2 → cost r c = 0) ∧
      (∀ r c, r < N → c < N → M2 r c = 1 →
        (rc2 r = 1 ∧ cc2 c = 0) ∨ (rc2 r = 0 ∧ cc2 c = 1)) := by
  intro fuel
  induction fuel with
  | zero =>
    intro indM rcov ccov M2 rc2 cc2 st2 seed2 E hsz hpz hsp h
    exact Option.noConfusion h
  | succ fuel ih =>
    intro indM rcov ccov M2 rc2 cc2 st2 seed2 E hsz hpz hsp h
    rw [step_four_go] at h
    match hfz : find_noncovered_zero cost rcov ccov N with
    | none =>
      rw [hfz] at h
      injection h with h
      obtain ⟨rfl, rfl, rfl, -, -⟩ : indM = M2 ∧ rcov = rc2 ∧ ccov = cc2 ∧ 6 = st2 ∧
          (none : Option (ℕ × ℕ)) = seed2 := by simpa only [Prod.mk.injEq] using h
      exact ⟨hsz, hpz, hsp⟩
    | some (row, col) =>
      rw [hfz] at h
      dsimp only at h
      obtain ⟨hrowN, hcolN, hzero, hrc0, hcc0⟩ := find_noncovered_zero_some hfz
      have hns := fourgo_cell_not_star E.toEpisodeBase hrowN hcolN hrc0 hcc0
      have hsz' : ∀ r c, r < N → c < N → updf indM row col 2 r c = 1 → cost r c = 0 :=
        fun r c hr hc h1 => hsz r c hr hc ((updf2_star hns).mp h1)
      have hpz' : ∀ r c, r < N → c < N → updf indM row col 2 r c = 2 → cost r c = 0 := by
        intro r c hr hc h2
        rcases updf2_prime.mp h2 with hold | ⟨rfl, rfl⟩
        · exact hpz r c hr hc hold
        · exact hzero
      by_cases hstar : star_in_row row (updf indM row col 2) N = true
      · rw [if_pos hstar] at h
        match hfs : find_star_in_row row (updf indM row col 2) N with
        | some col2 =>
          rw [hfs] at h
          obtain ⟨hcol2N, hstar2'⟩ := find_star_in_row_some hfs
          rw [updf2_star hns] at hstar2'
          have hsp' : ∀ r c, r < N → c < N → updf indM row col 2 r c = 1 →
              (Function.update rcov row 1 r = 1 ∧ Function.update ccov col2 0 c = 0) ∨
              (Function.update rcov row 1 r = 0 ∧ Function.update ccov col2 0 c = 1) := by
            intro r c hr hc h1
            have hA1 : indM r c = 1 := (updf2_star hns).mp h1
            rcases hsp r c hr hc hA1 with ⟨hrc1, hcv0⟩ | ⟨hrc00, hcv1⟩
            · left
              constructor
              · by_cases hrr : r = row
                · rw [hrr, Function.update_same]
                · rw [Function.update_noteq hrr]; exact hrc1
              · by_cases hcc : c = col2
                · rw [hcc, Function.update_same]
                · rw [Function.update_noteq hcc]; exact hcv0
            · by_cases hrr : r = row
              · have hceq : c = col2 := by
                  refine E.starRow row c col2 hrowN hc hcol2N ?_ hstar2'
                  rw [← hrr]; exact hA1
                left
                rw [hrr, hceq, Function.update_same, Function.update_same]
                exact ⟨rfl, rfl⟩
              · right
                constructor
                · rw [Function.update_noteq hrr]; exact hrc00
                · by_cases hcc : c = col2
                  · exfalso
                    apply hrr
                    refine E.starCol r row c hr hrowN hc hA1 ?_
                    rw [hcc]; exact hstar2'
                  · rw [Function.update_noteq hcc]; exact hcv1
          exact ih _ _ _ _ _ _ _ _
            (episode_prime_cover E hrowN hcolN hrc0 hcc0 hcol2N hstar2') hsz' hpz' hsp' h
        | none =>
          obtain ⟨c2, hc2, hstar2⟩ := star_in_row_iff.mp hstar
          exact absurd hstar2 (find_star_in_row_none hfs c2 hc2)
      · rw [if_neg hstar] at h
        injection h with h
        obtain ⟨rfl, rfl, rfl, -, -⟩ : updf indM row col 2 = M2 ∧ rcov = rc2 ∧ ccov = cc2 ∧
            5 = st2 ∧ some (row, col) = seed2 := by simpa only [Prod.mk.injEq] using h
        refine ⟨hsz', hpz', ?_⟩
        intro r c hr hc h1
        exact hsp r c hr hc ((updf2_star hns).mp h1)

theorem step_four_cinv {N : ℕ} {s s' : MState}
    (E : EpisodeInv N s.indM s.rcov s.ccov)
    (hsz : ∀ r c, r < N → c < N → s.indM r c = 1 → s.cost r c = 0)
    (hpz : ∀ r c, r < N → c < N → s.indM r c = 2 → s.cost r c = 0)
    (hsp : ∀ r c, r < N → c < N → s.indM r c = 1 →
      (s.rcov r = 1 ∧ s.ccov c = 0) ∨ (s.rcov r = 0 ∧ s.ccov c = 1))
    (h : step_four N s = some s') :
    s'.cost = s.cost ∧ s'.input = s.input ∧
    (∀ r c, r < N → c < N → s'.indM r c = 1 → s.cost r c = 0) ∧
    (∀ r c, r < N → c < N → s'.indM r c = 2 → s.cost r c = 0) ∧
    (∀ r c, r < N → c < N → s'.indM r c = 1 →
      (s'.rcov r = 1 ∧ s'.ccov c = 0) ∨ (s'.rcov r = 0 ∧ s'.ccov c = 1)) := by
  unfold step_four at h
  match hgo : step_four_go N s.cost (N + 1) s.indM s.rcov s.ccov with
  | none => rw [hgo, Option.map_none'] at h; exact Option.noConfusion h
  | some t =>
    obtain ⟨M2, rc2, cc2, st2, seed2⟩ := t
    rw [hgo, Option.map_some'] at h
    injection h with h
    subst h
    obtain ⟨h1, h2, h3⟩ := step_four_go_cinv (N + 1) _ _ _ _ _ _ _ _ E hsz hpz hsp hgo
    exact ⟨rfl, rfl, h1, h2, h3⟩

theorem initState_cinv (N : ℕ) (input : ℕ → ℕ → ℚ) : CostInv N (initState N input) := by
  refine ⟨⟨fun _ => 0, fun _ => 0, fun r c _ _ => by simp [initState]⟩, ?_, ?_, ?_, ?_⟩
  · intro hne
    exact absurd rfl hne
  · intro r c _ _ h1
    exact absurd h1 (by simp [initState])
  · intro r c _ _ h2
    exact absurd h2 (by simp [initState])
  · intro hc
    rcases hc with hc | hc <;> exact absurd hc (by simp [initState])

theorem dispatch_cinv {N : ℕ} {s s' : MState} (I : Inv N s) (C : CostInv N s)
    (h : dispatch N s = some s') : CostInv N s' := by
  unfold dispatch at h
  split at h
  · -- step 1: row reduction
    rename_i hstep
    injection h with h
    subst h
    have hz := I.at12 (Or.inl hstep)
    have hcost : ∀ r c, r < N → c < N →
        (step_one N s).cost r c = s.cost r c - rowMin s.cost N r := by
      intro r c hr hc
      simp [step_one, hr, hc]
    refine ⟨?_, ?_, ?_, ?_, ?_⟩
    · obtain ⟨u, v, hd⟩ := C.decomp
      refine ⟨fun r => u r + rowMin s.cost N r, v, ?_⟩
      intro r c hr hc
      have hinp : (step_one N s).input = s.input := rfl
      rw [hcost r c hr hc, hinp, hd r c hr hc]
      ring
    · intro _ r c hr hc
      rw [hcost r c hr hc, sub_nonneg]
      exact rowMin_le hc
    · intro r c _ _ h1
      have h1' : s.indM r c = 1 := h1
      rw [hz.1 r c] at h1'
      exact absurd h1' (by omega)
    · intro r c _ _ h2
      have h2' : s.indM r c = 2 := h2
      rw [hz.1 r c] at h2'
      exact absurd h2' (by omega)
    · intro hc
      rcases hc with hc | hc <;> exact absurd hc (by simp [step_one])
  · -- step 2: initial starring
    rename_i hstep
    injection h with h
    subst h
    obtain ⟨-, -, hNP, -, -, -, -⟩ := @step_two_post N s (I.at12 (Or.inr hstep))
    refine ⟨C.decomp, ?_, ?_, ?_, ?_⟩
    · intro _ r c hr hc
      exact C.nonneg (by omega) r c hr hc
    · exact step_two_stars_zero (I.at12 (Or.inr hstep)).1
    · intro r c hr hc h2
      exact absurd h2 (hNP r c hr hc)
    · intro hc
      rcases hc with hc | hc <;> exact absurd hc (by simp [step_two])
  · -- step 3: column covering
    rename_i hstep
    injection h with h
    subst h
    obtain ⟨-, -, -, hrc, -⟩ := I.at3 hstep
    refine ⟨C.decomp, ?_, C.stars_zero, C.primes_zero, ?_⟩
    · intro _ r c hr hc
      exact C.nonneg (by omega) r c hr hc
    · intro hc' r c hr hc h1
      rcases @step_three_step N s with h7 | h4
      · rcases hc' with hc' | hc' <;> omega
      · right
        refine ⟨hrc r, ?_⟩
        rw [step_three_ccov]
        rw [if_pos ⟨hc, any_star_col_iff.mpr ⟨r, hr, h1⟩⟩]
  · -- step 4: priming loop
    rename_i hstep
    have E := I.at46 (Or.inl hstep)
    obtain ⟨hcost, hinput, hsz, hpz, hsp⟩ := step_four_cinv E (C.stars_zero)
      (C.primes_zero) (C.star_split (Or.inl hstep)) h
    refine ⟨?_, ?_, ?_, ?_, ?_⟩
    · obtain ⟨u, v, hd⟩ := C.decomp
      refine ⟨u, v, ?_⟩
      intro r c hr hc
      rw [hcost, hinput]
      exact hd r c hr hc
    · intro _ r c hr hc
      rw [hcost]
      exact C.nonneg (by omega) r c hr hc
    · intro r c hr hc h1
      rw [hcost]
      exact hsz r c hr hc h1
    · intro r c hr hc h2
      rw [hcost]
      exact hpz r c hr hc h2
    · intro _ r c hr hc h1
      exact hsp r c hr hc h1
  · -- step 5: augmenting path
    rename_i hstep
    have I5 := I.at5 hstep
    obtain ⟨h3, -, -, hNP, -, -, -, hcost, hinput, horig⟩ :=
      step_five_post I5 I.marks_le h
    refine ⟨?_, ?_, ?_, ?_, ?_⟩
    · obtain ⟨u, v, hd⟩ := C.decomp
      refine ⟨u, v, ?_⟩
      intro r c hr hc
      rw [hcost, hinput]
      exact hd r c hr hc
    · intro _ r c hr hc
      rw [hcost]
      exact C.nonneg (by omega) r c hr hc
    · intro r c hr hc h1
      rw [hcost]
      rcases horig r c hr hc h1 with hA | hA
      · exact C.stars_zero r c hr hc hA
      · exact C.primes_zero r c hr hc hA
    · intro r c hr hc h2
      exact absurd h2 (hNP r c hr hc)
    · intro hc
      rcases hc with hc | hc <;> omega
  · -- step 6: matrix adjustment
    rename_i hstep
    injection h with h
    subst h
    have E := I.at46 (Or.inr hstep)
    have hm0 : 0 ≤ find_smallest DBL_MAX s.cost s.rcov s.ccov N :=
      find_smallest_nonneg (C.nonneg (by omega))
    refine ⟨?_, ?_, ?_, ?_, ?_⟩
    · obtain ⟨u, v, hd⟩ := C.decomp
      refine ⟨fun r => u r -
          (if s.rcov r = 1 then find_smallest DBL_MAX s.cost s.rcov s.ccov N else 0),
        fun c => v c +
          (if s.ccov c = 0 then find_smallest DBL_MAX s.cost s.rcov s.ccov N else 0), ?_⟩
      intro r c hr hc
      rw [step_six_cost_change s hr hc, hd r c hr hc]
      have : (step_six N s).input = s.input := rfl
      rw [this]
      ring
    · intro _ r c hr hc
      rw [step_six_cost_change s hr hc]
      have hcost0 := C.nonneg (by omega) r c hr hc
      rcases E.rcov01 r with hr0 | hr1
      · rw [if_neg (by omega)]
        rcases E.ccov01 c with hc0 | hc1
        · rw [if_pos hc0]
          have := @find_smallest_le N r c s.cost s.rcov s.ccov DBL_MAX hr hc hr0 hc0
          linarith
        · rw [if_neg (by omega)]
          linarith
      · rw [if_pos hr1]
        rcases E.ccov01 c with hc0 | hc1
        · rw [if_pos hc0]
          linarith
        · rw [if_neg (by omega)]
          linarith
    · intro r c hr hc h1
      rw [step_six_cost_change s hr hc]
      have hz := C.stars_zero r c hr hc h1
      rcases C.star_split (Or.inr hstep) r c hr hc h1 with ⟨hr1, hc0⟩ | ⟨hr0, hc1⟩
      · rw [if_pos hr1, if_pos hc0, hz]; ring
      · rw [if_neg (by omega), if_neg (by omega), hz]; ring
    · intro r c hr hc h2
      rw [step_six_cost_change s hr hc]
      have hz := C.primes_zero r c hr hc h2
      have hr1 := E.prime_covRow r c hr hc h2
      have hc0 := E.prime_unc_col r c hr hc h2
      rw [if_pos hr1, if_pos hc0, hz]; ring
    · intro _ r c hr hc h1
      exact C.star_split (Or.inr hstep) r c hr hc h1
  · -- step 7 or unknown: state unchanged
    injection h with h
    subst h
    exact C

theorem runSteps_cinv {N : ℕ} : ∀ (k : ℕ) (s s' : MState), Inv N s → CostInv N s →
    runSteps N k s = some s' → CostInv N s' := by
  intro k
  induction k with
  | zero =>
    intro s s' I C h
    injection h with h
    subst h
    exact C
  | succ k ih =>
    intro s s' I C h
    unfold runSteps at h
    match hd : dispatch N s with
    | none => rw [hd] at h; exact Option.noConfusion h
    | some s₁ =>
      rw [hd] at h
      exact ih s₁ s' (dispatch_inv I hd) (dispatch_cinv I C hd) h

theorem runToDone_cinv {N : ℕ} : ∀ (fuel : ℕ) (s s' : MState), Inv N s → CostInv N s →
    runToDone N fuel s = some s' → CostInv N s' := by
  intro fuel
  induction fuel with
  | zero =>
    intro s s' I C h
    unfold runToDone at h
    split at h
    · injection h with h; subst h; exact C
    · exact Option.noConfusion h
  | succ fuel ih =>
    intro s s' I C h
    unfold runToDone at h
    split at h
    · injection h with h; subst h; exact C
    · match hd : dispatch N s with
      | none => rw [hd] at h; exact Option.noConfusion h
      | some s₁ =>
        rw [hd] at h
        exact ih s₁ s' (dispatch_inv I hd) (dispatch_cinv I C hd) h

theorem runToDone_input {N : ℕ} : ∀ (fuel : ℕ) (s s' : MState),
    runToDone N fuel s = some s' → s'.input = s.input := by
  intro fuel
  induction fuel with
  | zero =>
    intro s s' h
    unfold runToDone at h
    split at h
    · injection h with h; subst h; rfl
    · exact Option.noConfusion h
  | succ fuel ih =>
    intro s s' h
    unfold runToDone at h
    split at h
    · injection h with h; subst h; rfl
    · match hd : dispatch N s with
      | none => rw [hd] at h; exact Option.noConfusion h
      | some s₁ =>
        rw [hd] at h
        rw [ih s₁ s' h, dispatch_input hd]

/-! Optimality of the returned assignment. -/

theorem sum_comp_inj {N : ℕ} (v : ℕ → ℚ) (f : ℕ → ℕ)
    (hm : ∀ r, r < N → f r < N)
    (hi : ∀ r r', r < N → r' < N → f r = f r' → r = r') :
    ∑ r ∈ Finset.range N, v (f r) = ∑ c ∈ Finset.range N, v c := by
  have hinj : ∀ x ∈ Finset.range N, ∀ y ∈ Finset.range N, f x = f y → x = y :=
    fun x hx y hy hxy => hi x y (Finset.mem_range.mp hx) (Finset.mem_range.mp hy) hxy
  have himg : (Finset.range N).image f = Finset.range N := by
    apply Finset.eq_of_subset_of_card_le
    · intro c hcm
      obtain ⟨r, hrm, rfl⟩ := Finset.mem_image.mp hcm
      exact Finset.mem_range.mpr (hm r (Finset.mem_range.mp hrm))
    · rw [Finset.card_image_of_injOn]
      intro x hx y hy hxy
      exact hinj x (Finset.mem_coe.mp hx) y (Finset.mem_coe.mp hy) hxy
  conv_rhs => rw [← himg]
  rw [Finset.sum_image hinj]

theorem rowStar_spec {N : ℕ} {A : ℕ → ℕ → ℕ} {r : ℕ}
    (hex : ∃ c, c < N ∧ A r c = 1) :
    rowStar A N r < N ∧ A r (rowStar A N r) = 1 := by
  obtain ⟨c, hcN, hstar⟩ := hex
  unfold rowStar
  match hfind : find_star_in_row r A N with
  | none => exact absurd hstar (find_star_in_row_none hfind c hcN)
  | some c' =>
    obtain ⟨hc'N, hstar'⟩ := find_star_in_row_some hfind
    exact ⟨hc'N, hstar'⟩

/-- Claim C1: any assignment matrix returned by the solver has total
original cost no larger than that of every permutation assignment `τ` of
rows to columns. -/
theorem hungarian_minimizes_total_cost (input : ℕ → ℕ → ℚ) (N fuel : ℕ)
    (A : ℕ → ℕ → ℕ) (h : hungarian input N fuel = some A) (τ : ℕ → ℕ)
    (hτm : ∀ r, r < N → τ r < N)
    (hτi : ∀ r r', r < N → r' < N → τ r = τ r' → r = r') :
    assignCost input A N ≤ ∑ r ∈ Finset.range N, input r (τ r) := by
  unfold hungarian at h
  obtain ⟨sf, hrun, hA⟩ := Option.map_eq_some'.mp h
  subst hA
  obtain ⟨If, h7⟩ := runToDone_inv fuel _ sf (initState_inv N input) hrun
  have Cf := runToDone_cinv fuel _ sf (initState_inv N input) (initState_cinv N input) hrun
  have hinp : sf.input = input := runToDone_input fuel _ sf hrun
  obtain ⟨hSR, hSC, hNP, hcols⟩ := If.at7 h7
  have hperm := at7_perm hSR hSC hNP If.marks_le hcols
  obtain ⟨u, v, hd0⟩ := Cf.decomp
  have hd : ∀ r c, r < N → c < N → sf.cost r c = input r c - u r - v c := by
    intro r c hr hc
    rw [hd0 r c hr hc, hinp]
  have hnn : ∀ r c, r < N → c < N → 0 ≤ sf.cost r c :=
    Cf.nonneg (by rw [h7]; omega)
  have hstar : ∀ r, r < N →
      rowStar sf.indM N r < N ∧ sf.indM r (rowStar sf.indM N r) = 1 := by
    intro r hr
    obtain ⟨c, ⟨hcN, hc1⟩, -⟩ := hperm.1 r hr
    exact rowStar_spec ⟨c, hcN, hc1⟩
  have hLHS : assignCost input sf.indM N =
      ∑ r ∈ Finset.range N, input r (rowStar sf.indM N r) := by
    unfold assignCost
    refine Finset.sum_congr rfl ?_
    intro r hrm
    have hrN := Finset.mem_range.mp hrm
    rw [Finset.sum_eq_single_of_mem (rowStar sf.indM N r)
      (Finset.mem_range.mpr (hstar r hrN).1) ?_]
    · rw [if_pos (hstar r hrN).2]
    · intro b hbm hbne
      rw [if_neg ?_]
      intro hb1
      exact hbne (hSR r b (rowStar sf.indM N r) hrN (Finset.mem_range.mp hbm)
        (hstar r hrN).1 hb1 (hstar r hrN).2)
  have hval : ∀ r ∈ Finset.range N,
      input r (rowStar sf.indM N r) = u r + v (rowStar sf.indM N r) := by
    intro r hrm
    have hrN := Finset.mem_range.mp hrm
    have hz := Cf.stars_zero r (rowStar sf.indM N r) hrN (hstar r hrN).1 (hstar r hrN).2
    linarith [hd r (rowStar sf.indM N r) hrN (hstar r hrN).1]
  have hσm : ∀ r, r < N → rowStar sf.indM N r < N := fun r hr => (hstar r hr).1
  have hσi : ∀ r r', r < N → r' < N →
      rowStar sf.indM N r = rowStar sf.indM N r' → r = r' := by
    intro r r' hr hr' heq
    refine hSC r r' (rowStar sf.indM N r') hr hr' (hstar r' hr').1 ?_ (hstar r' hr').2
    rw [← heq]
    exact (hstar r hr).2
  have hRHSlow : ∀ r ∈ Finset.range N, u r + v (τ r) ≤ input r (τ r) := by
    intro r hrm
    have hrN := Finset.mem_range.mp hrm
    have h1 := hnn r (τ r) hrN (hτm r hrN)
    have h2 := hd r (τ r) hrN (hτm r hrN)
    linarith
  calc assignCost input sf.indM N
      = ∑ r ∈ Finset.range N, (u r + v (rowStar sf.indM N r)) := by
        rw [hLHS]; exact Finset.sum_congr rfl hval
    _ = (∑ r ∈ Finset.range N, u r) + ∑ r ∈ Finset.range N, v (rowStar sf.indM N r) :=
        Finset.sum_add_distrib
    _ = (∑ r ∈ Finset.range N, u r) + ∑ c ∈ Finset.range N, v c := by
        rw [sum_comp_inj v _ hσm hσi]
    _ = (∑ r ∈ Finset.range N, u r) + ∑ r ∈ Finset.range N, v (τ r) := by
        rw [sum_comp_inj v τ hτm hτi]
    _ = ∑ r ∈ Finset.range N, (u r + v (τ r)) := Finset.sum_add_distrib.symm
    _ ≤ ∑ r ∈ Finset.range N, input r (τ r) := Finset.sum_le_sum hRHSlow

/-- Witness for C1: the concrete 3 × 3 solve of `ceM` against the identity
permutation. -/
theorem hungarian_minimizes_total_cost_witness :
    hungarian ceM 3 30 = some ceSol ∧
      assignCost ceM ceSol 3 ≤ ∑ r ∈ Finset.range 3, ceM r r :=
  ⟨by with_unfolding_all rfl,
    hungarian_minimizes_total_cost ceM 3 30 ceSol (by with_unfolding_all rfl)
      (fun r => r) (fun r hr => hr) (fun r r' _ _ hrr => hrr)⟩

/-! Measures and progress facts for termination of the dispatcher. -/

theorem mem_starRows {A : ℕ → ℕ → ℕ} {N r : ℕ} :
    r ∈ starRows A N ↔ r < N ∧ ∃ c, c < N ∧ A r c = 1 := by
  unfold starRows
  simp only [Finset.mem_filter, Finset.mem_range, List.any_eq_true, List.mem_range,
    decide_eq_true_iff]

theorem starRows_congr {A B : ℕ → ℕ → ℕ} {N : ℕ}
    (h : ∀ r c, r < N → c < N → (A r c = 1 ↔ B r c = 1)) :
    starRows A N = starRows B N := by
  apply Finset.ext
  intro r
  rw [mem_starRows, mem_starRows]
  constructor
  · rintro ⟨hrN, c, hcN, h1⟩
    exact ⟨hrN, c, hcN, (h r c hrN hcN).mp h1⟩
  · rintro ⟨hrN, c, hcN, h1⟩
    exact ⟨hrN, c, hcN, (h r c hrN hcN).mpr h1⟩

theorem starRows_lt {N : ℕ} {A : ℕ → ℕ → ℕ} {rcov ccov : ℕ → ℕ}
    (E : EpisodeBase N A rcov ccov) : (starRows A N).card < N := by
  obtain ⟨c0, hc0N, -, hc0ns⟩ := E.nostar_col
  have hstar : ∀ r ∈ starRows A N, rowStar A N r < N ∧ A r (rowStar A N r) = 1 := by
    intro r hr
    obtain ⟨hrN, c, hcN, h1⟩ := mem_starRows.mp hr
    exact rowStar_spec ⟨c, hcN, h1⟩
  have hcard : (starRows A N).card ≤ ((Finset.range N).erase c0).card := by
    apply Finset.card_le_card_of_injOn (fun r => rowStar A N r)
    · intro r hr
      obtain ⟨hrN, -⟩ := mem_starRows.mp hr
      refine Finset.mem_erase.mpr ⟨?_, Finset.mem_range.mpr (hstar r hr).1⟩
      intro he
      exact hc0ns r hrN (he ▸ (hstar r hr).2)
    · intro r hr r' hr' heq
      have hr1 := hstar r (Finset.mem_coe.mp hr)
      have hr2 := hstar r' (Finset.mem_coe.mp hr')
      have hrN := (mem_starRows.mp (Finset.mem_coe.mp hr)).1
      have hr'N := (mem_starRows.mp (Finset.mem_coe.mp hr')).1
      refine E.starCol r r' (rowStar A N r') hrN hr'N hr2.1 ?_ hr2.2
      have heq' : rowStar A N r = rowStar A N r' := heq
      rw [← heq']
      exact hr1.2
  rw [Finset.card_erase_of_mem (Finset.mem_range.mpr hc0N), Finset.card_range] at hcard
  omega

theorem uncov_cell_exists {N : ℕ} {A : ℕ → ℕ → ℕ} {rcov ccov : ℕ → ℕ}
    (E : EpisodeBase N A rcov ccov) :
    ∃ r c, r < N ∧ c < N ∧ rcov r = 0 ∧ ccov c = 0 := by
  obtain ⟨c0, hc0N, hc0unc, hc0ns⟩ := E.nostar_col
  have hrow : ∃ r, r < N ∧ rcov r = 0 := by
    by_contra hno
    push_neg at hno
    have hall : (Finset.range N).filter (fun r => rcov r = 1) = Finset.range N := by
      apply Finset.filter_true_of_mem
      intro r hrmem
      rcases E.rcov01 r with h0 | h1
      · exact absurd h0 (hno r (Finset.mem_range.mp hrmem))
      · exact h1
    have hcard := covered_rows_card E.covRow_star E.starCol ⟨c0, hc0N, hc0unc, hc0ns⟩
    rw [hall, Finset.card_range] at hcard
    omega
  obtain ⟨r, hrN, hrunc⟩ := hrow
  exact ⟨r, c0, hrN, hc0N, hrunc, hc0unc⟩

theorem find_noncovered_zero_of_exists {cost : ℕ → ℕ → ℚ} {rcov ccov : ℕ → ℕ} {N : ℕ}
    (h : ∃ r c, r < N ∧ c < N ∧ cost r c = 0 ∧ rcov r = 0 ∧ ccov c = 0) :
    find_noncovered_zero cost rcov ccov N ≠ none := by
  intro hnone
  obtain ⟨r, c, hr, hc, hz, hrc, hcc⟩ := h
  exact find_noncovered_zero_none hnone r c hr hc ⟨hz, hrc, hcc⟩

theorem runSteps_add {N : ℕ} : ∀ (k1 k2 : ℕ) (s : MState),
    runSteps N (k1 + k2) s = (runSteps N k1 s).bind (runSteps N k2) := by
  intro k1
  induction k1 with
  | zero =>
    intro k2 s
    rw [Nat.zero_add]
    rfl
  | succ k1 ih =>
    intro k2 s
    have : k1 + 1 + k2 = (k1 + k2) + 1 := by omega
    rw [this]
    show (dispatch N s).bind (runSteps N (k1 + k2)) = _
    match hd : dispatch N s with
    | none =>
      have h1 : runSteps N (k1 + 1) s = none := by
        show (dispatch N s).bind (runSteps N k1) = none
        rw [hd]
        rfl
      rw [h1]
      rfl
    | some s1 =>
      show runSteps N (k1 + k2) s1 = (runSteps N (k1 + 1) s).bind (runSteps N k2)
      have h1 : runSteps N (k1 + 1) s = runSteps N k1 s1 := by
        show (dispatch N s).bind (runSteps N k1) = _
        rw [hd]
        rfl
      rw [h1, ih]

theorem five_new_star {N m : ℕ} {A : ℕ → ℕ → ℕ} {rcov ρ : ℕ → ℕ}
    {path : ℕ → ℕ × ℕ} (P : P5 N A rcov ρ path m) (hSC : StarColU N A)
    (hfin : ∀ r, r < N → A r ((path (2 * m)).2) ≠ 1)
    {j : ℕ} (hj : j ≤ m) :
    erase_primes (augment_path (2 * m + 1) A path) N
      (path (2 * j)).1 (path (2 * j)).2 = 1 := by
  have hp := P.prime_m j hj
  have haug : augment_path (2 * m + 1) A path (path (2 * j)).1 (path (2 * j)).2 =
      if A (path (2 * j)).1 (path (2 * j)).2 = 1 then 0 else 1 := by
    refine @augment_path_on A path (path (2 * j)).1 (path (2 * j)).2 (2 * m + 1) (2 * j)
      (by omega) Prod.mk.eta ?_
    intro q hq hqv
    exact p5_cells_ne P hSC hfin q (2 * j) hq (by omega) (hqv.trans Prod.mk.eta.symm)
  have hv : augment_path (2 * m + 1) A path (path (2 * j)).1 (path (2 * j)).2 = 1 := by
    rw [haug, hp]
    simp
  have hNA : erase_primes (augment_path (2 * m + 1) A path) N
      (path (2 * j)).1 (path (2 * j)).2 =
      if (path (2 * j)).1 < N ∧ (path (2 * j)).2 < N ∧
          augment_path (2 * m + 1) A path (path (2 * j)).1 (path (2 * j)).2 = 2 then 0
      else augment_path (2 * m + 1) A path (path (2 * j)).1 (path (2 * j)).2 := rfl
  rw [hNA, hv]
  exact if_neg (fun hand => by omega)

theorem five_starRows_growth {N m : ℕ} {A : ℕ → ℕ → ℕ} {rcov ρ : ℕ → ℕ}
    {path : ℕ → ℕ × ℕ} (P : P5 N A rcov ρ path m) (hSC : StarColU N A)
    (hfin : ∀ r, r < N → A r ((path (2 * m)).2) ≠ 1) :
    (starRows A N).card + 1 ≤
      (starRows (erase_primes (augment_path (2 * m + 1) A path) N) N).card := by
  have hsub : insert (path 0).1 (starRows A N) ⊆
      starRows (erase_primes (augment_path (2 * m + 1) A path) N) N := by
    intro r hr
    rcases Finset.mem_insert.mp hr with hseed | hold
    · subst hseed
      refine mem_starRows.mpr ⟨?_, (path 0).2, ?_, ?_⟩
      · have h0 := P.prime_r 0 (by omega)
        rw [show 2 * 0 = 0 from rfl] at h0
        exact h0
      · have h0 := P.prime_c 0 (by omega)
        rw [show 2 * 0 = 0 from rfl] at h0
        exact h0
      · have h0 := five_new_star P hSC hfin (show 0 ≤ m by omega)
        rw [show 2 * 0 = 0 from rfl] at h0
        exact h0
    · obtain ⟨hrN, c, hcN, h1⟩ := mem_starRows.mp hold
      by_cases hoff : ∀ p, p < 2 * m + 1 → path p ≠ (r, c)
      · refine mem_starRows.mpr ⟨hrN, c, hcN, ?_⟩
        have hv : augment_path (2 * m + 1) A path r c = A r c :=
          augment_path_off _ hoff
        have hNA : erase_primes (augment_path (2 * m + 1) A path) N r c =
            if r < N ∧ c < N ∧ augment_path (2 * m + 1) A path r c = 2 then 0
            else augment_path (2 * m + 1) A path r c := rfl
        rw [hNA, hv, h1]
        exact if_neg (fun hand => by omega)
      · push_neg at hoff
        obtain ⟨p, hp, hvp⟩ := hoff
        rcases parity_pos hp with ⟨j, hjm, rfl⟩ | ⟨j, hjm, rfl⟩
        · have h2 := P.prime_m j hjm
          rw [hvp] at h2
          have h2' : A r c = 2 := h2
          omega
        · have hsv := P.star_v j hjm
          rw [hsv] at hvp
          have hr1 : (path (2 * j + 2)).1 = r := congrArg Prod.fst hvp
          have h2 : 2 * (j + 1) = 2 * j + 2 := by ring
          refine mem_starRows.mpr ⟨hrN, (path (2 * (j + 1))).2, ?_, ?_⟩
          · exact P.prime_c (j + 1) (by omega)
          · have hns := five_new_star P hSC hfin (show j + 1 ≤ m by omega)
            rw [h2] at hns
            rw [hr1] at hns
            rw [h2]
            exact hns
  have hnotmem : (path 0).1 ∉ starRows A N := by
    intro hmem
    obtain ⟨-, c, hcN, h1⟩ := mem_starRows.mp hmem
    exact P.row0_nostar c hcN h1
  calc (starRows A N).card + 1 = (insert (path 0).1 (starRows A N)).card :=
        (Finset.card_insert_of_not_mem hnotmem).symm
    _ ≤ _ := Finset.card_le_card hsub

theorem step_five_isSome {N : ℕ} {s : MState} (I5 : Step5Inv N s) :
    ∃ s', step_five N s = some s' := by
  obtain ⟨path', m, heq, -⟩ := step_five_loop_result I5
  refine ⟨{ s with
              path := path',
              indM := erase_primes (augment_path (2 * m + 1) s.indM path') N,
              rcov := fun _ => 0,
              ccov := fun _ => 0,
              step := 3 }, ?_⟩
  unfold step_five
  rw [heq]

theorem step_five_growth {N : ℕ} {s s' : MState} (I5 : Step5Inv N s)
    (h : step_five N s = some s') :
    (starRows s.indM N).card + 1 ≤ (starRows s'.indM N).card := by
  obtain ⟨ρ, hrank⟩ := I5.rank
  have P0 : P5 N s.indM s.rcov ρ (Function.update s.path 0 (s.rpath0, s.cpath0)) 0 := by
    refine ⟨?_, ?_, ?_, ?_, ?_, ?_, ?_, ?_, ?_⟩
    · intro j hj
      have hj0 : j = 0 := by omega
      subst hj0
      exact I5.seed_row_lt
    · intro j hj
      have hj0 : j = 0 := by omega
      subst hj0
      exact I5.seed_col_lt
    · intro j hj
      have hj0 : j = 0 := by omega
      subst hj0
      exact I5.seed_prime
    · intro j hj; omega
    · intro j hj; omega
    · intro j hj; omega
    · intro j hj1 hj2; omega
    · exact I5.seed_unc
    · exact I5.seed_nostar
  obtain ⟨path', m, heq, -, hmb, P', hfin, -⟩ :=
    step_five_go_spec I5.starCol I5.star_unc_col I5.covRow_prime I5.prime_unc_col
      I5.covRow_star I5.nostar_col hrank (N + 1) 0
      (Function.update s.path 0 (s.rpath0, s.cpath0)) P0 (by omega)
  rw [show 2 * 0 + 1 = 1 from rfl] at heq
  unfold step_five at h
  rw [heq] at h
  injection h with h
  subst h
  exact five_starRows_growth P' I5.starCol hfin

theorem step_four_go_progress {N : ℕ} {cost : ℕ → ℕ → ℚ} :
    ∀ (fuel : ℕ) (indM : ℕ → ℕ → ℕ) (rcov ccov : ℕ → ℕ)
      (M2 : ℕ → ℕ → ℕ) (rc2 cc2 : ℕ → ℕ) (st2 : ℕ) (seed2 : Option (ℕ × ℕ)),
      EpisodeInv N indM rcov ccov →
      step_four_go N cost fuel indM rcov ccov = some (M2, rc2, cc2, st2, seed2) →
      (∀ r, rcov r = 1 → rc2 r = 1) ∧
      (∀ r c, r < N → c < N → (M2 r c = 1 ↔ indM r c = 1)) ∧
      (st2 = 6 → find_noncovered_zero cost rc2 cc2 N = none) ∧
      (st2 = 5 ∨ st2 = 6) := by
  intro fuel
  induction fuel with
  | zero =>
    intro indM rcov ccov M2 rc2 cc2 st2 seed2 E h
    exact Option.noConfusion h
  | succ fuel ih =>
    intro indM rcov ccov M2 rc2 cc2 st2 seed2 E h
    rw [step_four_go] at h
    match hfz : find_noncovered_zero cost rcov ccov N with
    | none =>
      rw [hfz] at h
      injection h with h
      obtain ⟨rfl, rfl, rfl, hst, -⟩ : indM = M2 ∧ rcov = rc2 ∧ ccov = cc2 ∧ 6 = st2 ∧
          (none : Option (ℕ × ℕ)) = seed2 := by simpa only [Prod.mk.injEq] using h
      exact ⟨fun r hr => hr, fun r c _ _ => Iff.rfl, fun _ => hfz, Or.inr hst.symm⟩
    | some (row, col) =>
      rw [hfz] at h
      dsimp only at h
      obtain ⟨hrowN, hcolN, -, hrc0, hcc0⟩ := find_noncovered_zero_some hfz
      have hns := fourgo_cell_not_star E.toEpisodeBase hrowN hcolN hrc0 hcc0
      by_cases hstar : star_in_row row (updf indM row col 2) N = true
      · rw [if_pos hstar] at h
        match hfs : find_star_in_row row (updf indM row col 2) N with
        | some col2 =>
          rw [hfs] at h
          obtain ⟨hcol2N, hstar2'⟩ := find_star_in_row_some hfs
          rw [updf2_star hns] at hstar2'
          obtain ⟨hmono, hiff, hnone, hst⟩ := ih _ _ _ _ _ _ _ _
            (episode_prime_cover E hrowN hcolN hrc0 hcc0 hcol2N hstar2') h
          refine ⟨?_, ?_, hnone, hst⟩
          · intro r hr
            exact hmono r (update_keeps_one hr)
          · intro r c hr hc
            rw [hiff r c hr hc]
            exact updf2_star hns
        | none =>
          obtain ⟨c2, hc2, hstar2⟩ := star_in_row_iff.mp hstar
          exact absurd hstar2 (find_star_in_row_none hfs c2 hc2)
      · rw [if_neg hstar] at h
        injection h with h
        obtain ⟨rfl, rfl, rfl, hst, -⟩ : updf indM row col 2 = M2 ∧ rcov = rc2 ∧
            ccov = cc2 ∧ 5 = st2 ∧ some (row, col) = seed2 := by
          simpa only [Prod.mk.injEq] using h
        refine ⟨fun r hr => hr, ?_, ?_, Or.inl hst.symm⟩
        · intro r c hr hc
          exact updf2_star hns
        · intro h6
          omega

theorem step_four_progress {N : ℕ} {s s' : MState}
    (E : EpisodeInv N s.indM s.rcov s.ccov) (h : step_four N s = some s') :
    (∀ r, s.rcov r = 1 → s'.rcov r = 1) ∧
    (∀ r c, r < N → c < N → (s'.indM r c = 1 ↔ s.indM r c = 1)) ∧
    (s'.step = 6 → find_noncovered_zero s.cost s'.rcov s'.ccov N = none) := by
  unfold step_four at h
  match hgo : step_four_go N s.cost (N + 1) s.indM s.rcov s.ccov with
  | none => rw [hgo, Option.map_none'] at h; exact Option.noConfusion h
  | some t =>
    obtain ⟨M2, rc2, cc2, st2, seed2⟩ := t
    rw [hgo, Option.map_some'] at h
    injection h with h
    subst h
    obtain ⟨hmono, hiff, hnone, -⟩ :=
      step_four_go_progress (N + 1) _ _ _ _ _ _ _ _ E hgo
    exact ⟨hmono, hiff, hnone⟩

theorem step_four_covers_strict {N : ℕ} {s s' : MState}
    (E : EpisodeInv N s.indM s.rcov s.ccov)
    (hz : find_noncovered_zero s.cost s.rcov s.ccov N ≠ none)
    (h : step_four N s = some s') (h6 : s'.step = 6) :
    ∃ row, row < N ∧ s.rcov row = 0 ∧ s'.rcov row = 1 := by
  unfold step_four at h
  match hgo : step_four_go N s.cost (N + 1) s.indM s.rcov s.ccov with
  | none => rw [hgo, Option.map_none'] at h; exact Option.noConfusion h
  | some t =>
    obtain ⟨M2, rc2, cc2, st2, seed2⟩ := t
    rw [hgo, Option.map_some'] at h
    injection h with h
    subst h
    rw [step_four_go] at hgo
    match hfz : find_noncovered_zero s.cost s.rcov s.ccov N with
    | none => exact absurd hfz hz
    | some (row, col) =>
      rw [hfz] at hgo
      dsimp only at hgo
      obtain ⟨hrowN, hcolN, -, hrc0, hcc0⟩ := find_noncovered_zero_some hfz
      have hns := fourgo_cell_not_star E.toEpisodeBase hrowN hcolN hrc0 hcc0
      by_cases hstar : star_in_row row (updf s.indM row col 2) N = true
      · rw [if_pos hstar] at hgo
        match hfs : find_star_in_row row (updf s.indM row col 2) N with
        | some col2 =>
          rw [hfs] at hgo
          obtain ⟨hcol2N, hstar2'⟩ := find_star_in_row_some hfs
          rw [updf2_star hns] at hstar2'
          obtain ⟨hmono, -, -, -⟩ := step_four_go_progress N _ _ _ _ _ _ _ _
            (episode_prime_cover E hrowN hcolN hrc0 hcc0 hcol2N hstar2') hgo
          refine ⟨row, hrowN, hrc0, ?_⟩
          exact hmono row (Function.update_same row 1 s.rcov)
        | none =>
          obtain ⟨c2, hc2, hstar2⟩ := star_in_row_iff.mp hstar
          exact absurd hstar2 (find_star_in_row_none hfs c2 hc2)
      · rw [if_neg hstar] at hgo
        injection hgo with hgo
        obtain ⟨-, -, -, hst, -⟩ : updf s.indM row col 2 = M2 ∧ s.rcov = rc2 ∧
            s.ccov = cc2 ∧ 5 = st2 ∧ some (row, col) = seed2 := by
          simpa only [Prod.mk.injEq] using hgo
        have : st2 = 6 := h6
        omega

theorem step_four_stuck {N : ℕ} {s s' : MState}
    (hz : find_noncovered_zero s.cost s.rcov s.ccov N = none)
    (h : step_four N s = some s') :
    s'.indM = s.indM ∧ s'.rcov = s.rcov ∧ s'.ccov = s.ccov ∧ s'.step = 6 ∧
      s'.cost = s.cost := by
  unfold step_four at h
  rw [step_four_go, hz] at h
  simp only [Option.map_some'] at h
  injection h with h
  subst h
  exact ⟨rfl, rfl, rfl, rfl, rfl⟩

theorem uncovCount_le_of_mono {N : ℕ} {rcov rc2 : ℕ → ℕ}
    (h01 : ∀ r, rcov r = 0 ∨ rcov r = 1)
    (hmono : ∀ r, rcov r = 1 → rc2 r = 1) :
    uncovCount rc2 N ≤ uncovCount rcov N := by
  apply Finset.card_le_card
  intro r hr
  obtain ⟨hrm, hr0⟩ := Finset.mem_filter.mp hr
  refine Finset.mem_filter.mpr ⟨hrm, ?_⟩
  rcases h01 r with h | h
  · exact h
  · rw [hmono r h] at hr0
    exact absurd hr0 (by omega)

theorem uncovCount_lt_of_new {N : ℕ} {rcov rc2 : ℕ → ℕ}
    (h01 : ∀ r, rcov r = 0 ∨ rcov r = 1)
    (hmono : ∀ r, rcov r = 1 → rc2 r = 1)
    (hnew : ∃ row, row < N ∧ rcov row = 0 ∧ rc2 row = 1) :
    uncovCount rc2 N < uncovCount rcov N := by
  obtain ⟨row, hrowN, h0, h1⟩ := hnew
  apply Finset.card_lt_card
  constructor
  · intro r hr
    obtain ⟨hrm, hr0⟩ := Finset.mem_filter.mp hr
    refine Finset.mem_filter.mpr ⟨hrm, ?_⟩
    rcases h01 r with h | h
    · exact h
    · rw [hmono r h] at hr0
      exact absurd hr0 (by omega)
  · intro hsup
    have hmem : row ∈ (Finset.range N).filter (fun r => rcov r = 0) :=
      Finset.mem_filter.mpr ⟨Finset.mem_range.mpr hrowN, h0⟩
    have := Finset.mem_filter.mp (hsup hmem)
    omega

theorem mem_uncovCells {rcov ccov : ℕ → ℕ} {N : ℕ} {p : ℕ × ℕ} :
    p ∈ uncovCells rcov ccov N ↔
      p.1 < N ∧ p.2 < N ∧ rcov p.1 = 0 ∧ ccov p.2 = 0 := by
  unfold uncovCells
  simp only [Finset.mem_filter, Finset.mem_product, Finset.mem_range]
  tauto

theorem step_six_tMeasure {N : ℕ} {s : MState}
    (E : EpisodeInv N s.indM s.rcov s.ccov)
    (hnn : ∀ r c, r < N → c < N → 0 ≤ s.cost r c)
    (hnz : find_noncovered_zero s.cost s.rcov s.ccov N = none) :
    tMeasure N (step_six N s) < tMeasure N s := by
  have hset : uncovCells (step_six N s).rcov (step_six N s).ccov N =
      uncovCells s.rcov s.ccov N := rfl
  have hm0 : 0 ≤ find_smallest DBL_MAX s.cost s.rcov s.ccov N :=
    find_smallest_nonneg hnn
  have hnewcost : ∀ p ∈ uncovCells s.rcov s.ccov N,
      (step_six N s).cost p.1 p.2 =
        s.cost p.1 p.2 - find_smallest DBL_MAX s.cost s.rcov s.ccov N := by
    intro p hp
    obtain ⟨h1, h2, h3, h4⟩ := mem_uncovCells.mp hp
    rw [step_six_cost_change s h1 h2, if_neg (by omega), if_pos h4, add_zero]
  have hposcell : ∀ p ∈ uncovCells s.rcov s.ccov N, 0 < s.cost p.1 p.2 := by
    intro p hp
    obtain ⟨h1, h2, h3, h4⟩ := mem_uncovCells.mp hp
    have hne := find_noncovered_zero_none hnz p.1 p.2 h1 h2
    have : s.cost p.1 p.2 ≠ 0 := fun hzero => hne ⟨hzero, h3, h4⟩
    have := hnn p.1 p.2 h1 h2
    rcases lt_or_eq_of_le this with h | h
    · exact h
    · exact absurd h.symm (by assumption)
  have hle : ∀ p ∈ uncovCells s.rcov s.ccov N,
      (Int.ceil ((step_six N s).cost p.1 p.2 / DBL_MAX)).toNat ≤
        (Int.ceil (s.cost p.1 p.2 / DBL_MAX)).toNat := by
    intro p hp
    rw [hnewcost p hp]
    have hdiv : (s.cost p.1 p.2 - find_smallest DBL_MAX s.cost s.rcov s.ccov N) / DBL_MAX ≤
        s.cost p.1 p.2 / DBL_MAX := by
      refine (div_le_div_iff_of_pos_right DBL_MAX_pos).mpr ?_
      linarith
    have := Int.ceil_le_ceil hdiv
    omega
  have hstrict : ∃ p ∈ uncovCells s.rcov s.ccov N,
      (Int.ceil ((step_six N s).cost p.1 p.2 / DBL_MAX)).toNat <
        (Int.ceil (s.cost p.1 p.2 / DBL_MAX)).toNat := by
    obtain ⟨r0, c0, hr0, hc0, hrc0, hcc0⟩ := uncov_cell_exists E.toEpisodeBase
    have hmem0 : ((r0, c0) : ℕ × ℕ) ∈ uncovCells s.rcov s.ccov N :=
      mem_uncovCells.mpr ⟨hr0, hc0, hrc0, hcc0⟩
    have hattcase : (∃ p ∈ uncovCells s.rcov s.ccov N,
        s.cost p.1 p.2 = find_smallest DBL_MAX s.cost s.rcov s.ccov N) ∨
        (find_smallest DBL_MAX s.cost s.rcov s.ccov N = DBL_MAX ∧
          DBL_MAX < s.cost r0 c0) := by
      rcases @find_smallest_mem N s.cost s.rcov s.ccov DBL_MAX with hD |
        ⟨ra, ca, hraN, hcaN, hra0, hca0, hatt⟩
      · by_cases hsmall : s.cost r0 c0 ≤ DBL_MAX
        · left
          refine ⟨(r0, c0), hmem0, ?_⟩
          have hle0 := @find_smallest_le N r0 c0 s.cost s.rcov s.ccov DBL_MAX
            hr0 hc0 hrc0 hcc0
          rw [hD]
          rw [hD] at hle0
          linarith
        · exact Or.inr ⟨hD, by linarith⟩
      · left
        exact ⟨(ra, ca), mem_uncovCells.mpr ⟨hraN, hcaN, hra0, hca0⟩, hatt.symm⟩
    rcases hattcase with ⟨p, hpmem, hpatt⟩ | ⟨hD, hbig⟩
    · refine ⟨p, hpmem, ?_⟩
      have hnew0 : (step_six N s).cost p.1 p.2 = 0 := by
        rw [hnewcost p hpmem, hpatt, sub_self]
      rw [hnew0, zero_div, Int.ceil_zero]
      have hpos : (0 : ℚ) < s.cost p.1 p.2 := hposcell p hpmem
      have h1 : (0 : ℤ) < Int.ceil (s.cost p.1 p.2 / DBL_MAX) :=
        Int.ceil_pos.mpr (div_pos hpos DBL_MAX_pos)
      omega
    · have hnc : (step_six N s).cost r0 c0 =
          s.cost r0 c0 - find_smallest DBL_MAX s.cost s.rcov s.ccov N := hnewcost _ hmem0
      refine ⟨(r0, c0), hmem0, ?_⟩
      show (Int.ceil ((step_six N s).cost r0 c0 / DBL_MAX)).toNat <
        (Int.ceil (s.cost r0 c0 / DBL_MAX)).toNat
      have heq : (s.cost r0 c0 - DBL_MAX) / DBL_MAX = s.cost r0 c0 / DBL_MAX - 1 := by
        rw [sub_div, div_self (ne_of_gt DBL_MAX_pos)]
      rw [hnc, hD, heq, Int.ceil_sub_one]
      have h2 : (1 : ℤ) < Int.ceil (s.cost r0 c0 / DBL_MAX) := by
        apply Int.lt_ceil.mpr
        push_cast
        exact (one_lt_div DBL_MAX_pos).mpr hbig
      omega
  unfold tMeasure
  rw [hset]
  exact Finset.sum_lt_sum hle hstrict

theorem episode_terminates {N : ℕ} : ∀ (d t : ℕ) (s : MState),
    Inv N s → CostInv N s → s.step = 4 →
    uncovCount s.rcov N ≤ d → tMeasure N s ≤ t →
    ∃ k s', runSteps N k s = some s' ∧ s'.step = 3 ∧
      (starRows s.indM N).card + 1 ≤ (starRows s'.indM N).card := by
  intro d
  induction d using Nat.strong_induction_on with
  | _ d ihd =>
    intro t
    induction t using Nat.strong_induction_on with
    | _ t iht =>
      intro s I C h4 hdle htle
      have E := I.at46 (Or.inl h4)
      obtain ⟨s1, h41⟩ := Option.isSome_iff_exists.mp (step_four_isSome N s)
      have hd1 : dispatch N s = some s1 := by
        have hds : dispatch N s = step_four N s := by unfold dispatch; rw [h4]
        rw [hds, h41]
      have hI1 := dispatch_inv I hd1
      have hC1 := dispatch_cinv I C hd1
      obtain ⟨hmono, hiff, -⟩ := step_four_progress E h41
      rcases (step_four_post E h41).1 with ⟨h6, E1⟩ | ⟨h5, I5⟩
      · have hd2 : dispatch N s1 = some (step_six N s1) := by
          unfold dispatch; rw [h6]
        have hI2 := dispatch_inv hI1 hd2
        have hC2 := dispatch_cinv hI1 hC1 hd2
        have h2run : runSteps N 2 s = some (step_six N s1) := by
          show (dispatch N s).bind (runSteps N 1) = some (step_six N s1)
          rw [hd1]
          show (dispatch N s1).bind (runSteps N 0) = some (step_six N s1)
          rw [hd2]
          rfl
        have hstep4 : (step_six N s1).step = 4 := rfl
        have hrcov2 : (step_six N s1).rcov = s1.rcov := rfl
        match hz : find_noncovered_zero s.cost s.rcov s.ccov N with
        | some rc =>
          obtain ⟨row, hrowN, hold0, hnew1⟩ :=
            step_four_covers_strict E
              (by rw [hz]; exact fun hcontra => Option.noConfusion hcontra) h41 h6
          have hlt : uncovCount s1.rcov N < uncovCount s.rcov N :=
            uncovCount_lt_of_new E.rcov01 hmono ⟨row, hrowN, hold0, hnew1⟩
          obtain ⟨k, s', hrun, h3', hgrow⟩ :=
            ihd (uncovCount (step_six N s1).rcov N)
              (by rw [hrcov2]; omega)
              (tMeasure N (step_six N s1)) (step_six N s1) hI2 hC2 hstep4
              (le_refl _) (le_refl _)
          refine ⟨2 + k, s', ?_, h3', ?_⟩
          · rw [runSteps_add, h2run]
            exact hrun
          · have hsix : (step_six N s1).indM = s1.indM := rfl
            have hsr : starRows s1.indM N = starRows s.indM N := starRows_congr hiff
            rw [hsix, hsr] at hgrow
            exact hgrow
        | none =>
          obtain ⟨hind, hrc, hcc, -, hcost⟩ := step_four_stuck hz h41
          have ht2 : tMeasure N (step_six N s1) < tMeasure N s := by
            have h1 : tMeasure N (step_six N s1) < tMeasure N s1 := by
              apply step_six_tMeasure (hI1.at46 (Or.inr h6)) (hC1.nonneg (by omega))
              rw [hcost, hrc, hcc]
              exact hz
            have h2 : tMeasure N s1 = tMeasure N s := by
              unfold tMeasure
              rw [hcost, hrc, hcc]
            omega
          obtain ⟨k, s', hrun, h3', hgrow⟩ :=
            iht (tMeasure N (step_six N s1)) (by omega) (step_six N s1) hI2 hC2 hstep4
              (by rw [hrcov2, hrc]; exact hdle) (le_refl _)
          refine ⟨2 + k, s', ?_, h3', ?_⟩
          · rw [runSteps_add, h2run]
            exact hrun
          · have hsix : (step_six N s1).indM = s1.indM := rfl
            rw [hsix, hind] at hgrow
            exact hgrow
      · obtain ⟨s2, h52⟩ := step_five_isSome I5
        have hd2 : dispatch N s1 = some s2 := by
          have hds : dispatch N s1 = step_five N s1 := by unfold dispatch; rw [h5]
          rw [hds, h52]
        have h2run : runSteps N 2 s = some s2 := by
          show (dispatch N s).bind (runSteps N 1) = some s2
          rw [hd1]
          show (dispatch N s1).bind (runSteps N 0) = some s2
          rw [hd2]
          rfl
        have h3' : s2.step = 3 := (step_five_post I5 hI1.marks_le h52).1
        have hgrow := step_five_growth I5 h52
        have hsr : starRows s1.indM N = starRows s.indM N := starRows_congr hiff
        rw [hsr] at hgrow
        exact ⟨2, s2, h2run, h3', hgrow⟩

theorem solve_loop_terminates {N : ℕ} : ∀ (n : ℕ) (s : MState),
    Inv N s → CostInv N s → s.step = 3 →
    N - (starRows s.indM N).card ≤ n →
    ∃ k s', runSteps N k s = some s' ∧ s'.step = 7 := by
  intro n
  induction n using Nat.strong_induction_on with
  | _ n ih =>
    intro s I C h3 hn
    have hd1 : dispatch N s = some (step_three N s) := by
      unfold dispatch; rw [h3]
    have hI1 := dispatch_inv I hd1
    have hC1 := dispatch_cinv I C hd1
    have h1run : runSteps N 1 s = some (step_three N s) := by
      show (dispatch N s).bind (runSteps N 0) = _
      rw [hd1]
      rfl
    rcases @step_three_step N s with h7 | h4
    · exact ⟨1, step_three N s, h1run, h7⟩
    · have E1 := hI1.at46 (Or.inl h4)
      have hlt : (starRows (step_three N s).indM N).card < N := starRows_lt E1.toEpisodeBase
      obtain ⟨k, s2, hrun, h3', hgrow⟩ :=
        episode_terminates (uncovCount (step_three N s).rcov N)
          (tMeasure N (step_three N s)) (step_three N s) hI1 hC1 h4 (le_refl _) (le_refl _)
      have hI2 := runSteps_inv k _ s2 hI1 hrun
      have hC2 := runSteps_cinv k _ s2 hI1 hC1 hrun
      have hfr : (step_three N s).indM = s.indM := (step_three_frame s).1
      rw [hfr] at hgrow hlt
      obtain ⟨k', s3, hrun', h7'⟩ :=
        ih (N - (starRows s2.indM N).card) (by omega) s2 hI2 hC2 h3' (le_refl _)
      refine ⟨1 + (k + k'), s3, ?_, h7'⟩
      rw [runSteps_add, h1run]
      show runSteps N (k + k') (step_three N s) = some s3
      rw [runSteps_add, hrun]
      exact hrun'

theorem runToDone_of_runSteps {N : ℕ} : ∀ (k : ℕ) (s s' : MState),
    runSteps N k s = some s' → s'.step = 7 →
    ∃ s'', runToDone N k s = some s'' ∧ s''.step = 7 := by
  intro k
  induction k with
  | zero =>
    intro s s' h h7
    injection h with h
    subst h
    refine ⟨s, ?_, h7⟩
    unfold runToDone
    rw [if_pos h7]
  | succ k ih =>
    intro s s' h h7
    by_cases h7s : s.step = 7
    · refine ⟨s, ?_, h7s⟩
      unfold runToDone
      rw [if_pos h7s]
    · have hstep : runSteps N (k + 1) s = (dispatch N s).bind (runSteps N k) := rfl
      rw [hstep] at h
      match hd : dispatch N s with
      | none => rw [hd] at h; exact Option.noConfusion h
      | some s1 =>
        rw [hd] at h
        obtain ⟨s'', hrtd, h7''⟩ := ih s1 s' h h7
        refine ⟨s'', ?_, h7''⟩
        unfold runToDone
        rw [if_neg h7s, hd]
        exact hrtd

/-- Claim C3: on every input the dispatcher loop of `hungarian` terminates:
some finite number of phase transitions reaches the terminal phase 7 (the
phase-4/phase-6 cycle cannot spin forever), and `hungarian` returns the
mark matrix of that terminal state. -/
theorem hungarian_terminates (input : ℕ → ℕ → ℚ) (N : ℕ) :
    ∃ fuel s', runToDone N fuel (initState N input) = some s' ∧ s'.step = 7 ∧
      hungarian input N fuel = some s'.indM := by
  have h2run : runSteps N 2 (initState N input) =
      some (step_two N (step_one N (initState N input))) := rfl
  have hI2 := runSteps_inv 2 _ _ (initState_inv N input) h2run
  have hC2 := runSteps_cinv 2 _ _ (initState_inv N input) (initState_cinv N input) h2run
  have h3 : (step_two N (step_one N (initState N input))).step = 3 := rfl
  obtain ⟨k, sf, hrun, h7⟩ :=
    solve_loop_terminates
      (N - (starRows (step_two N (step_one N (initState N input))).indM N).card)
      _ hI2 hC2 h3 (le_refl _)
  have hfull : runSteps N (2 + k) (initState N input) = some sf := by
    rw [runSteps_add, h2run]
    exact hrun
  obtain ⟨sff, hrtd, h7'⟩ := runToDone_of_runSteps (2 + k) _ sf hfull h7
  refine ⟨2 + k, sff, hrtd, h7', ?_⟩
  unfold hungarian
  rw [hrtd]
  rfl

end Munkres
